import Mathlib

/-!
# hw2: ticket lock, CAS lock and the wait-time benchmark

A shallow embedding of `hw2.go`.

* Machine integers are mathematical integers reduced explicitly: `wrap32` is the
  two's-complement reduction into `int32`, `wrap64` the one into `int64`.  Go's `int` is
  taken to be 64 bits wide.
* The two locks are embedded twice: as sequential functions on the lock record
  (`TicketLock.Lock`, `TicketLock.Unlock`, `CASLock.Lock`, `CASLock.Unlock`, the spin loops
  carrying a fuel argument), and as interleaving transition systems (`tstep`, `cstep`) in
  which one step is one atomic operation of one thread.
* `benchmarkLock` is embedded as a transition system over the steps of the calling
  goroutine and of the workers, with the `sync.WaitGroup` counter at its real width of 32
  bits; the shared accumulator is also embedded on its own, over the order of the workers'
  `atomic.AddInt64` calls. The measured waits are an input.
* `main` is embedded as the list of its `fmt.Printf` calls, with `benchmarkLock` a parameter.
-/

namespace HW2

/-! ## Machine integers -/

/-- Two's-complement reduction of an integer into the `int32` range `[-2^31, 2^31)`. -/
def wrap32 (x : Int) : Int := (x + 2147483648) % 4294967296 - 2147483648

/-- Two's-complement reduction of an integer into the `int64` range `[-2^63, 2^63)`. -/
def wrap64 (x : Int) : Int := (x + 9223372036854775808) % 18446744073709551616 - 9223372036854775808

/-- The value `atomic.AddInt32(&v, delta)` stores and returns. -/
def atomicAddInt32 (v delta : Int) : Int := wrap32 (v + delta)

/-- The value `atomic.AddInt64(&v, delta)` stores and returns. -/
def atomicAddInt64 (v delta : Int) : Int := wrap64 (v + delta)

/-! ## TicketLock (hw2.go lines 12-26) -/

/-- The `TicketLock` record: two `int32` counters. -/
structure TicketLock where
  ticket : Int
  turn : Int
  deriving DecidableEq

/-- Line 18, `myturn := atomic.AddInt32(&l.ticket, 1) - 1`: the updated lock and the
captured `myturn` (the subtraction is `int32` arithmetic as well). -/
def TicketLock.takeTicket (l : TicketLock) : TicketLock × Int :=
  let nv := atomicAddInt32 l.ticket 1
  ({ l with ticket := nv }, wrap32 (nv - 1))

/-- Line 19, the loop condition `atomic.LoadInt32(&l.turn) != myturn`. -/
def TicketLock.mustYield (l : TicketLock) (myturn : Int) : Bool :=
  l.turn != myturn

/-- Lines 19-21 run by a caller nobody interferes with: the number of `runtime.Gosched()`
calls made before the loop exits, `none` when the fuel runs out first. -/
def TicketLock.spinLoop (l : TicketLock) (myturn : Int) : Nat → Nat → Option Nat
  | 0, _ => none
  | fuel + 1, yields =>
    if l.mustYield myturn then TicketLock.spinLoop l myturn fuel (yields + 1) else some yields

/-- `TicketLock.Lock` run by a single caller: the lock afterwards, the captured `myturn`
and the number of yields. -/
def TicketLock.Lock (fuel : Nat) (l : TicketLock) : Option (TicketLock × Int × Nat) :=
  let r := l.takeTicket
  (TicketLock.spinLoop r.1 r.2 fuel 0).map fun y => (r.1, r.2, y)

/-- `TicketLock.Unlock`: `atomic.AddInt32(&l.turn, 1)`. -/
def TicketLock.Unlock (l : TicketLock) : TicketLock :=
  { l with turn := atomicAddInt32 l.turn 1 }

/-- Where a thread stands in its `Lock; critical section; Unlock` cycle on a `TicketLock`.
`spin m` is inside the loop of `Lock` with captured `myturn = m`; `crit m` is after `Lock`
returned, before `Unlock`, `m` being the `myturn` the returned call had captured. -/
inductive TPc where
  | idle
  | spin (myturn : Int)
  | crit (myturn : Int)
  deriving DecidableEq

/-- A `TicketLock` shared by the threads `τ`. -/
structure TState (τ : Type) where
  lock : TicketLock
  pc : τ → TPc

/-- A fresh lock (`&TicketLock{}`), every thread about to call `Lock`. -/
def tinit (τ : Type) : TState τ := ⟨⟨0, 0⟩, fun _ => TPc.idle⟩

/-- One atomic operation of thread `t`: the fetch-and-add of `Lock`, one load of `turn` in
the spin loop (leaving the loop when it equals `myturn`), or the add of `Unlock`. -/
def tstep {τ : Type} [DecidableEq τ] (s : TState τ) (t : τ) : TState τ :=
  match s.pc t with
  | TPc.idle =>
    let r := s.lock.takeTicket
    ⟨r.1, Function.update s.pc t (TPc.spin r.2)⟩
  | TPc.spin m =>
    if s.lock.mustYield m then s else ⟨s.lock, Function.update s.pc t (TPc.crit m)⟩
  | TPc.crit _ => ⟨s.lock.Unlock, Function.update s.pc t TPc.idle⟩

/-- The state after the threads of `sched` took one step each, in that order. -/
def trun {τ : Type} [DecidableEq τ] (s : TState τ) (sched : List τ) : TState τ :=
  sched.foldl tstep s

/-- States reachable from a fresh lock. -/
inductive TReachable {τ : Type} [DecidableEq τ] : TState τ → Prop where
  | init : TReachable (tinit τ)
  | step (s : TState τ) (t : τ) : TReachable s → TReachable (tstep s t)

/-- Thread `t` holds ticket `m`: it is waiting for it or inside the critical section. -/
def TState.holds {τ : Type} (s : TState τ) (t : τ) (m : Int) : Prop :=
  s.pc t = TPc.spin m ∨ s.pc t = TPc.crit m

/-- Thread `t` is inside the critical section. -/
def TState.inCrit {τ : Type} (s : TState τ) (t : τ) : Prop :=
  ∃ m, s.pc t = TPc.crit m

/-- Thread `t` is waiting in the spin loop of `Lock`. -/
def TState.waiting {τ : Type} (s : TState τ) (t : τ) : Prop :=
  ∃ m, s.pc t = TPc.spin m

/-- Distance of the `int32` value `m` ahead of `turn`, modulo `2^32`: `0` for `turn`
itself, `1` for the next ticket, and so on. -/
def TState.ahead {τ : Type} (s : TState τ) (m : Int) : Int :=
  (m - s.lock.turn) % 4294967296

/-- The bookkeeping behind the ticket discipline: `k` tickets are outstanding, thread `t`
holding the one at distance `pos t` from `turn`. -/
structure TInv {τ : Type} (s : TState τ) (k : Nat) (pos : τ → Nat) : Prop where
  turn_lo : -2147483648 ≤ s.lock.turn
  turn_hi : s.lock.turn < 2147483648
  ticket_eq : s.lock.ticket = wrap32 (s.lock.turn + k)
  spin_pos : ∀ t m, s.pc t = TPc.spin m → pos t < k ∧ m = wrap32 (s.lock.turn + pos t)
  crit_pos : ∀ t m, s.pc t = TPc.crit m → pos t = 0 ∧ 0 < k ∧ m = s.lock.turn
  inj : ∀ t u, s.pc t ≠ TPc.idle → s.pc u ≠ TPc.idle → pos t = pos u → t = u
  cover : ∀ j, j < k → ∃ t, s.pc t ≠ TPc.idle ∧ pos t = j

/-! ## Schedules used to exhibit wraparound -/

/-- Thread number `i` among `n + 1` threads. -/
def thread (n i : Nat) : Fin (n + 1) := ⟨i % (n + 1), Nat.mod_lt i (Nat.succ_pos n)⟩

/-- The schedule in which threads `0, 1, ..., i - 1` (of `n + 1`) take one step each. -/
def firstThreads (n i : Nat) : List (Fin (n + 1)) := (List.range i).map (thread n)

/-- With `2^32 + 1` threads: every thread takes a ticket, then thread `0` and thread `2^32`
poll `turn`. -/
def overlapSchedule : List (Fin (4294967296 + 1)) :=
  firstThreads 4294967296 4294967297 ++ [thread 4294967296 0, thread 4294967296 4294967296]


/-- With `2^32 + 2` threads: every thread takes a ticket, then thread `0` polls `turn`
and enters the critical section. -/
def passedSchedule : List (Fin (4294967297 + 1)) :=
  firstThreads 4294967297 4294967298 ++ [thread 4294967297 0]

/-- The schedule in which thread `t` runs `n` uncontended `Lock`/`Unlock` cycles: three
steps a cycle (take a ticket, poll, unlock). -/
def cycleSchedule {τ : Type} (t : τ) : Nat → List τ
  | 0 => []
  | n + 1 => t :: t :: t :: cycleSchedule t n

/-- With two threads: thread `0` runs `2^31 - 1` uncontended cycles, then thread `0` and
thread `1` each take a ticket. -/
def wrapSchedule : List (Fin 2) :=
  cycleSchedule 0 2147483647 ++ [0, 1]


/-! ## CASLock (hw2.go lines 29-41) -/

/-- The `CASLock` record: one `int32` flag. -/
structure CASLock where
  flag : Int
  deriving DecidableEq

/-- `atomic.CompareAndSwapInt32(&l.flag, old, new)`: the lock afterwards and whether the
swap happened. -/
def CASLock.compareAndSwap (l : CASLock) (old new : Int) : CASLock × Bool :=
  if l.flag = old then (⟨new⟩, true) else (l, false)

/-- `CASLock.Unlock`: `atomic.StoreInt32(&l.flag, 0)`. -/
def CASLock.Unlock (_l : CASLock) : CASLock := ⟨0⟩

/-- `CASLock.Lock` run by a caller nobody interferes with: the lock afterwards and the
number of `runtime.Gosched()` calls, `none` when the fuel runs out first. -/
def CASLock.Lock : Nat → CASLock → Option (CASLock × Nat)
  | 0, _ => none
  | fuel + 1, l =>
    let r := l.compareAndSwap 0 1
    if r.2 then some (r.1, 0)
    else (CASLock.Lock fuel r.1).map fun p => (p.1, p.2 + 1)

/-- Where a thread stands in its cycle on a `CASLock`: before `Lock`, inside the loop of
`Lock` after a failed attempt, or between `Lock` and `Unlock`. -/
inductive CPc where
  | idle
  | spin
  | crit
  deriving DecidableEq

/-- A `CASLock` shared by the threads `τ`. -/
structure CState (τ : Type) where
  lock : CASLock
  pc : τ → CPc

/-- A fresh lock (`&CASLock{}`), every thread about to call `Lock`. -/
def cinit (τ : Type) : CState τ := ⟨⟨0⟩, fun _ => CPc.idle⟩

/-- One atomic operation of thread `t`: one compare-and-swap attempt of `Lock`, or the
store of `Unlock`. -/
def cstep {τ : Type} [DecidableEq τ] (s : CState τ) (t : τ) : CState τ :=
  match s.pc t with
  | CPc.crit => ⟨s.lock.Unlock, Function.update s.pc t CPc.idle⟩
  | _ =>
    let r := s.lock.compareAndSwap 0 1
    if r.2 then ⟨r.1, Function.update s.pc t CPc.crit⟩
    else ⟨r.1, Function.update s.pc t CPc.spin⟩

/-- States reachable from a fresh lock. -/
inductive CReachable {τ : Type} [DecidableEq τ] : CState τ → Prop where
  | init : CReachable (cinit τ)
  | step (s : CState τ) (t : τ) : CReachable s → CReachable (cstep s t)

/-- The state after the threads of `sched` took one step each, in that order. -/
def crun {τ : Type} [DecidableEq τ] (s : CState τ) (sched : List τ) : CState τ :=
  sched.foldl cstep s

/-- The flag is `1` exactly while some thread, and then only one, is between `Lock` and
`Unlock`. -/
def CInv {τ : Type} (s : CState τ) : Prop :=
  (s.lock.flag = 0 ∧ ∀ t, s.pc t ≠ CPc.crit)
  ∨ (s.lock.flag = 1 ∧ ∃ t, s.pc t = CPc.crit ∧ ∀ u, s.pc u = CPc.crit → u = t)


/-! ## benchmarkLock (hw2.go lines 44-73)

`wait g i` is the value of `wait.Nanoseconds()` in iteration `i` of worker `g`; the lock
only decides in which orders the workers can reach their adds. A call is run under a
schedule of events: the calling goroutine takes its next step (start one more worker, or
look at the counter inside `wg.Wait()` and go on to the division), or a started worker
takes its next step (the add of its next iteration, or its deferred `wg.Done()`).
`sync.WaitGroup` keeps its counter in 32 bits and reads it back as an `int32`: `Add`
panics when that value is negative, `Wait` returns when it is zero. -/

/-- How a call of `benchmarkLock` ends. `panicWaitGroup` is a panic raised inside
`sync.WaitGroup`; `blocked` is a call that has not ended when the schedule is over. -/
inductive Outcome where
  | returned (avgWait : Int)
  | panicWaitGroup
  | panicDivideByZero
  | blocked
  deriving DecidableEq

/-- The shared accumulator and the loop counter `i` of every worker. -/
structure BenchState where
  totalWait : Int
  done : Nat → Nat

/-- `var totalWait int64`, no worker started yet. -/
def benchInit : BenchState := ⟨0, fun _ => 0⟩

/-- Worker `g` performs the add of its next iteration (line 60) and moves on; nothing
happens when there is no worker `g` (`g < goroutines` fails) or its loop is over
(`i < iterations` fails). -/
def addStep (wait : Nat → Nat → Int) (goroutines iterations : Int) (s : BenchState)
    (g : Nat) : BenchState :=
  if (g : Int) < goroutines ∧ (s.done g : Int) < iterations then
    ⟨atomicAddInt64 s.totalWait (wait g (s.done g)), Function.update s.done g (s.done g + 1)⟩
  else s

/-- The accumulator after the adds of `sched`. -/
def runWorkers (wait : Nat → Nat → Int) (goroutines iterations : Int) (sched : List Nat) :
    BenchState :=
  sched.foldl (addStep wait goroutines iterations) benchInit

/-- Every worker left its loop. -/
def allDone (goroutines iterations : Int) (s : BenchState) : Prop :=
  ∀ g : Nat, g < goroutines.toNat → ¬ ((s.done g : Int) < iterations)

instance (goroutines iterations : Int) (s : BenchState) :
    Decidable (allDone goroutines iterations s) :=
  Nat.decidableBallLT _ _

/-- Number of samples added to `totalWait` so far. -/
def samples (goroutines : Int) (s : BenchState) : Nat :=
  ∑ g ∈ Finset.range goroutines.toNat, s.done g

/-- The exact (unwrapped) sum of the first `k g` samples of every worker `g`. -/
def exactSum (wait : Nat → Nat → Int) (goroutines : Int) (k : Nat → Nat) : Int :=
  ∑ g ∈ Finset.range goroutines.toNat, ∑ i ∈ Finset.range (k g), wait g i

/-- One scheduling decision during a call of `benchmarkLock`. -/
inductive Event where
  | caller
  | worker (g : Nat)
  deriving DecidableEq

/-- A call of `benchmarkLock` in progress: the loop variable `g` of line 53 (the number of
workers started), the `WaitGroup` counter, the accumulator with every worker's loop
counter, which workers ran their deferred `wg.Done()`, and how the call ended once it has. -/
structure CallState where
  spawned : Nat
  counter : Int
  bench : BenchState
  exited : Nat → Bool
  outcome : Option Outcome

/-- Lines 71-72: `totalWait / int64(goroutines*iterations)`, the product taken in `int`. -/
def divide (goroutines iterations totalWait : Int) : Outcome :=
  let d := wrap64 (goroutines * iterations)
  if d = 0 then Outcome.panicDivideByZero
  else Outcome.returned (wrap64 (Int.tdiv totalWait d))

/-- Lines 49-51: a zero accumulator and `wg.Add(goroutines)` on a fresh `WaitGroup`, whose
counter takes the low 32 bits of `goroutines` and panics when they read negative. -/
def callStart (goroutines : Int) : CallState :=
  let c := atomicAddInt32 0 goroutines
  ⟨0, c, benchInit, fun _ => false, if c < 0 then some Outcome.panicWaitGroup else none⟩

/-- The next step of the calling goroutine: start worker `g` while `g < goroutines`
(lines 53-54); afterwards `wg.Wait()` (line 70), which lets the call go on to the division
when the counter is zero and otherwise keeps waiting. -/
def callerStep (goroutines iterations : Int) (s : CallState) : CallState :=
  if (s.spawned : Int) < goroutines then { s with spawned := s.spawned + 1 }
  else if s.counter = 0 then
    { s with outcome := some (divide goroutines iterations s.bench.totalWait) }
  else s

/-- The next step of worker `g`, once started: the add of its next iteration (lines
56-66), and after the loop its deferred `wg.Done()` (line 55), which takes one off the
counter and panics when the counter goes negative. -/
def workerStep (wait : Nat → Nat → Int) (goroutines iterations : Int) (s : CallState)
    (g : Nat) : CallState :=
  if g < s.spawned then
    if (s.bench.done g : Int) < iterations then
      { s with bench := addStep wait goroutines iterations s.bench g }
    else if s.exited g then s
    else
      let c := atomicAddInt32 s.counter (-1)
      { s with counter := c, exited := Function.update s.exited g true,
               outcome := if c < 0 then some Outcome.panicWaitGroup else none }
  else s

/-- One event; nothing happens any more once the call has ended. -/
def callStep (wait : Nat → Nat → Int) (goroutines iterations : Int) (s : CallState)
    (e : Event) : CallState :=
  match s.outcome with
  | some _ => s
  | none =>
    match e with
    | Event.caller => callerStep goroutines iterations s
    | Event.worker g => workerStep wait goroutines iterations s g

/-- The call after the events of `sched`. -/
def runCall (wait : Nat → Nat → Int) (goroutines iterations : Int) (sched : List Event) :
    CallState :=
  sched.foldl (callStep wait goroutines iterations) (callStart goroutines)

/-- `benchmarkLock(lock, goroutines, iterations)` under the schedule `sched`. -/
def benchmarkLock (wait : Nat → Nat → Int) (goroutines iterations : Int)
    (sched : List Event) : Outcome :=
  (runCall wait goroutines iterations sched).outcome.getD Outcome.blocked

/-- What the `WaitGroup` counter should be: the workers that have not run `wg.Done()`. -/
def pending (goroutines : Int) (exited : Nat → Bool) : Nat :=
  ∑ g ∈ Finset.range goroutines.toNat, if exited g then 0 else 1

/-- What is left to do before the call ends. -/
def remaining (goroutines iterations : Int) (s : CallState) : Nat :=
  (goroutines.toNat - s.spawned)
    + (goroutines.toNat * iterations.toNat - samples goroutines s.bench)
    + pending goroutines s.exited

/-- The bookkeeping of a call whose worker count fits the `WaitGroup` counter. -/
structure CallInv (wait : Nat → Nat → Int) (goroutines iterations : Int) (s : CallState) :
    Prop where
  spawned_le : (s.spawned : Int) ≤ goroutines
  bench_run : ∃ l, s.bench = runWorkers wait goroutines iterations l
  exited_done : ∀ g, s.exited g = true →
    g < s.spawned ∧ ¬ ((s.bench.done g : Int) < iterations)
  counter_eq : s.counter = (pending goroutines s.exited : Int)
  ended : ∀ o, s.outcome = some o →
    o = divide goroutines iterations s.bench.totalWait
    ∧ ∀ g, g < goroutines.toNat → s.exited g = true

/-- Small samples used for illustration: between `0` and `4` ns. -/
def smallWait : Nat → Nat → Int :=
  fun g i => (((3 * g + i) % 5 : Nat) : Int)

/-- Samples used for illustration: worker `g` waits `100 * g + i` ns in iteration `i`. -/
def sampleWait : Nat → Nat → Int :=
  fun g i => 100 * (g : Int) + (i : Int)


/-! ## main (hw2.go lines 76-90) -/

/-- One argument of a `fmt.Printf` call. -/
inductive Arg where
  | str (s : String)
  | int (n : Int)
  | dur (d : Int)
  deriving DecidableEq

/-- One `fmt.Printf` call: the format string and the arguments. -/
structure PrintfCall where
  format : String
  args : List Arg
  deriving DecidableEq

/-- The value handed to the interface parameter of `benchmarkLock`. -/
inductive LockValue where
  | ticket (l : TicketLock)
  | cas (l : CASLock)
  deriving DecidableEq

/-- `main`: the `fmt.Printf` calls it makes, in order, `benchmarkLock` being `bench`. -/
def main (bench : LockValue → Int → Int → Int) : List PrintfCall :=
  let iterations : Int := 1000
  let goroutineCounts : List Int := [2, 5, 10, 20, 50]
  goroutineCounts.foldl
    (fun out g =>
      let ticket : TicketLock := ⟨0, 0⟩
      let cas : CASLock := ⟨0⟩
      let avgTicket := bench (LockValue.ticket ticket) g iterations
      let avgCAS := bench (LockValue.cas cas) g iterations
      out ++ [ ⟨ "%-12d %-12v %-12v\n", [Arg.int g, Arg.dur avgTicket, Arg.dur avgCAS]⟩ ])
    [ ⟨ "%-12s %-12s %-12s\n", [Arg.str "Goroutines", Arg.str "TicketLock", Arg.str "CASLock"]⟩ ]


/-! ## Theorems -/

theorem wrap32_id (x : Int) (lo : -2147483648 ≤ x) (hi : x < 2147483648) : wrap32 x = x := by
  unfold wrap32; omega

theorem wrap32_wrap_add (a b : Int) : wrap32 (wrap32 a + b) = wrap32 (a + b) := by
  unfold wrap32; omega

theorem takeTicket_myturn (l : TicketLock) (lo : -2147483648 ≤ l.ticket)
    (hi : l.ticket < 2147483648) : l.takeTicket.2 = l.ticket := by
  simp only [TicketLock.takeTicket, atomicAddInt32]
  unfold wrap32; omega

/-! ### Sequential `Lock` and `Unlock` at the wraparound -/

/-- C6: for every `int32` value `v`, `Lock` by a single caller on a lock with
`ticket = turn = v` captures `myturn = v`, returns without a single yield and leaves
`ticket = v + 1` (wrapped) with `turn = v`; the following `Unlock` leaves
`ticket = turn = v + 1` (wrapped); from `v = 2^31 - 1` the counters wrap to `-2^31`. -/
theorem ticketLock_wraparound (v : Int) (lo : -2147483648 ≤ v) (hi : v < 2147483648)
    (fuel : Nat) :
    TicketLock.Lock (fuel + 1) ⟨v, v⟩ = some (⟨wrap32 (v + 1), v⟩, v, 0)
    ∧ TicketLock.Unlock ⟨wrap32 (v + 1), v⟩ = ⟨wrap32 (v + 1), wrap32 (v + 1)⟩
    ∧ (-2147483648 ≤ wrap32 (v + 1) ∧ wrap32 (v + 1) < 2147483648)
    ∧ (v < 2147483647 → wrap32 (v + 1) = v + 1)
    ∧ (v = 2147483647 → wrap32 (v + 1) = -2147483648) := by
  have hm : (TicketLock.takeTicket ⟨v, v⟩).2 = v := takeTicket_myturn ⟨v, v⟩ lo hi
  refine ⟨?_, ?_, ?_, ?_, ?_⟩
  · have h1 : (TicketLock.takeTicket ⟨v, v⟩).1 = ⟨wrap32 (v + 1), v⟩ := rfl
    simp [TicketLock.Lock, hm, h1, TicketLock.spinLoop, TicketLock.mustYield]
  · rfl
  · unfold wrap32; omega
  · intro h; unfold wrap32; omega
  · intro h; unfold wrap32; omega

theorem ticketLock_wraparound_witness :
    (-2147483648 : Int) ≤ 2147483647 ∧ (2147483647 : Int) < 2147483648
    ∧ TicketLock.Lock (0 + 1) ⟨2147483647, 2147483647⟩
        = some (⟨wrap32 (2147483647 + 1), 2147483647⟩, 2147483647, 0)
    ∧ TicketLock.Unlock ⟨wrap32 (2147483647 + 1), 2147483647⟩
        = ⟨wrap32 (2147483647 + 1), wrap32 (2147483647 + 1)⟩
    ∧ (-2147483648 ≤ wrap32 (2147483647 + 1) ∧ wrap32 (2147483647 + 1) < 2147483648)
    ∧ ((2147483647 : Int) < 2147483647 → wrap32 (2147483647 + 1) = 2147483647 + 1)
    ∧ ((2147483647 : Int) = 2147483647 → wrap32 (2147483647 + 1) = -2147483648) :=
  ⟨by decide, by decide, ticketLock_wraparound 2147483647 (by decide) (by decide) 0⟩

/-! ### Step equations of the ticket lock -/

theorem tstep_idle {τ : Type} [DecidableEq τ] (s : TState τ) (t : τ) (h : s.pc t = TPc.idle) :
    tstep s t = ⟨s.lock.takeTicket.1, Function.update s.pc t (TPc.spin s.lock.takeTicket.2)⟩ := by
  simp only [tstep, h]

theorem tstep_spin_stay {τ : Type} [DecidableEq τ] (s : TState τ) (t : τ) (m : Int)
    (h : s.pc t = TPc.spin m) (hm : s.lock.turn ≠ m) : tstep s t = s := by
  simp [tstep, h, TicketLock.mustYield, hm]

theorem tstep_spin_enter {τ : Type} [DecidableEq τ] (s : TState τ) (t : τ) (m : Int)
    (h : s.pc t = TPc.spin m) (hm : s.lock.turn = m) :
    tstep s t = ⟨s.lock, Function.update s.pc t (TPc.crit m)⟩ := by
  simp [tstep, h, TicketLock.mustYield, hm]

theorem tstep_crit {τ : Type} [DecidableEq τ] (s : TState τ) (t : τ) (m : Int)
    (h : s.pc t = TPc.crit m) :
    tstep s t = ⟨s.lock.Unlock, Function.update s.pc t TPc.idle⟩ := by
  simp only [tstep, h]

/-! ### The ticket invariant -/

theorem tinv_init (τ : Type) : TInv (tinit τ) 0 (fun _ => 0) where
  turn_lo := by simp [tinit]
  turn_hi := by simp [tinit]
  ticket_eq := by simp [tinit, wrap32]
  spin_pos := by intro t m h; simp [tinit] at h
  crit_pos := by intro t m h; simp [tinit] at h
  inj := by intro t u h; simp [tinit] at h
  cover := by intro j h; omega

/-- No more tickets are outstanding than there are threads. -/
theorem tinv_card {τ : Type} [Fintype τ] {s : TState τ} {k : Nat} {pos : τ → Nat}
    (h : TInv s k pos) : k ≤ Fintype.card τ := by
  classical
  choose g hg using fun j : Fin k => h.cover j.1 j.2
  have hinj : Function.Injective g := by
    intro a b hab
    have ha := (hg a).2
    have hb := (hg b).2
    rw [hab] at ha
    exact Fin.ext (ha.symm.trans hb)
  simpa using Fintype.card_le_of_injective g hinj

theorem tinv_pos_lt {τ : Type} {s : TState τ} {k : Nat} {pos : τ → Nat}
    (h : TInv s k pos) (t : τ) (ht : s.pc t ≠ TPc.idle) : pos t < k := by
  cases hp : s.pc t with
  | idle => exact absurd hp ht
  | spin m => exact (h.spin_pos t m hp).1
  | crit m => have := h.crit_pos t m hp; omega

theorem tinv_step_idle {τ : Type} [DecidableEq τ] {s : TState τ} {k : Nat} {pos : τ → Nat}
    (h : TInv s k pos) (t : τ) (ht : s.pc t = TPc.idle) :
    TInv (tstep s t) (k + 1) (Function.update pos t k) := by
  have hlo : -2147483648 ≤ s.lock.ticket := by rw [h.ticket_eq]; unfold wrap32; omega
  have hhi : s.lock.ticket < 2147483648 := by rw [h.ticket_eq]; unfold wrap32; omega
  have hmy : s.lock.takeTicket.2 = s.lock.ticket := takeTicket_myturn _ hlo hhi
  rw [tstep_idle s t ht, hmy]
  have hne : ∀ u, u ≠ t → (Function.update s.pc t (TPc.spin s.lock.ticket)) u = s.pc u :=
    fun u hu => Function.update_noteq hu _ _
  have hpe : ∀ u, u ≠ t → (Function.update pos t k) u = pos u :=
    fun u hu => Function.update_noteq hu _ _
  refine ⟨h.turn_lo, h.turn_hi, ?_, ?_, ?_, ?_, ?_⟩
  · show wrap32 (s.lock.ticket + 1) = wrap32 (s.lock.turn + ((k + 1 : Nat) : Int))
    rw [h.ticket_eq, wrap32_wrap_add]; push_cast; ring_nf
  · intro u m hu
    by_cases hut : u = t
    · subst hut
      simp only [Function.update_same] at hu ⊢
      injection hu with hu
      exact ⟨by omega, by rw [← hu, h.ticket_eq]; rfl⟩
    · simp only [hne u hut, hpe u hut] at hu ⊢
      have := h.spin_pos u m hu
      exact ⟨by omega, this.2⟩
  · intro u m hu
    by_cases hut : u = t
    · subst hut
      simp only [Function.update_same] at hu
      exact absurd hu (by simp)
    · simp only [hne u hut, hpe u hut] at hu ⊢
      have := h.crit_pos u m hu
      exact ⟨this.1, by omega, this.2.2⟩
  · intro u v hu hv huv
    dsimp only at hu hv
    by_cases hut : u = t
    · by_cases hvt : v = t
      · rw [hut, hvt]
      · subst hut
        rw [hne v hvt] at hv
        rw [Function.update_same, hpe v hvt] at huv
        have := tinv_pos_lt h v hv
        omega
    · by_cases hvt : v = t
      · subst hvt
        rw [hne u hut] at hu
        rw [Function.update_same, hpe u hut] at huv
        have := tinv_pos_lt h u hu
        omega
      · rw [hne u hut] at hu
        rw [hne v hvt] at hv
        rw [hpe u hut, hpe v hvt] at huv
        exact h.inj u v hu hv huv
  · intro j hj
    by_cases hjk : j = k
    · exact ⟨t, by simp, by simp [hjk]⟩
    · obtain ⟨u, hu, hpu⟩ := h.cover j (by omega)
      have hut : u ≠ t := by intro e; rw [e] at hu; exact hu ht
      exact ⟨u, by dsimp only; rw [hne u hut]; exact hu, by rw [hpe u hut]; exact hpu⟩

theorem tinv_step_spin {τ : Type} [DecidableEq τ] [Fintype τ]
    (hc : Fintype.card τ ≤ 4294967296) {s : TState τ} {k : Nat} {pos : τ → Nat}
    (h : TInv s k pos) (t : τ) (m : Int) (ht : s.pc t = TPc.spin m) :
    TInv (tstep s t) k pos := by
  by_cases hm : s.lock.turn = m
  · rw [tstep_spin_enter s t m ht hm]
    have hk := tinv_card h
    have hp := h.spin_pos t m ht
    have hp0 : pos t = 0 := by
      have h1 := hp.2
      rw [← hm] at h1
      have h2 := h.turn_lo
      have h3 := h.turn_hi
      unfold wrap32 at h1
      omega
    have hne : ∀ u, u ≠ t → (Function.update s.pc t (TPc.crit m)) u = s.pc u :=
      fun u hu => Function.update_noteq hu _ _
    have hidle : ∀ u, (Function.update s.pc t (TPc.crit m)) u ≠ TPc.idle → s.pc u ≠ TPc.idle := by
      intro u hu
      by_cases hut : u = t
      · rw [hut, ht]; simp
      · rwa [hne u hut] at hu
    refine ⟨h.turn_lo, h.turn_hi, h.ticket_eq, ?_, ?_, ?_, ?_⟩
    · intro u m' hu
      dsimp only at hu
      by_cases hut : u = t
      · subst hut
        simp only [Function.update_same] at hu
        exact absurd hu (by simp)
      · rw [hne u hut] at hu
        exact h.spin_pos u m' hu
    · intro u m' hu
      dsimp only at hu
      by_cases hut : u = t
      · subst hut
        simp only [Function.update_same] at hu
        injection hu with hu
        exact ⟨hp0, by omega, by rw [← hu, hm]⟩
      · rw [hne u hut] at hu
        exact h.crit_pos u m' hu
    · intro u v hu hv huv
      exact h.inj u v (hidle u hu) (hidle v hv) huv
    · intro j hj
      obtain ⟨u, hu, hpu⟩ := h.cover j hj
      refine ⟨u, ?_, hpu⟩
      dsimp only
      by_cases hut : u = t
      · subst hut; simp
      · rw [hne u hut]; exact hu
  · rw [tstep_spin_stay s t m ht hm]
    exact h

theorem tinv_step_crit {τ : Type} [DecidableEq τ] {s : TState τ} {k : Nat} {pos : τ → Nat}
    (h : TInv s k pos) (t : τ) (m : Int) (ht : s.pc t = TPc.crit m) :
    TInv (tstep s t) (k - 1) (fun u => pos u - 1) := by
  rw [tstep_crit s t m ht]
  obtain ⟨hp0, hk0, _⟩ := h.crit_pos t m ht
  have htn : s.pc t ≠ TPc.idle := by rw [ht]; simp
  have hne : ∀ u, u ≠ t → (Function.update s.pc t TPc.idle) u = s.pc u :=
    fun u hu => Function.update_noteq hu _ _
  have hpos : ∀ u, u ≠ t → s.pc u ≠ TPc.idle → 0 < pos u := by
    intro u hut hu
    by_contra hc
    exact hut (h.inj u t hu htn (by omega))
  have hidle : ∀ u, (Function.update s.pc t TPc.idle) u ≠ TPc.idle → u ≠ t ∧ s.pc u ≠ TPc.idle := by
    intro u hu
    by_cases hut : u = t
    · subst hut; simp at hu
    · exact ⟨hut, by rwa [hne u hut] at hu⟩
  have hlo := h.turn_lo
  have hhi := h.turn_hi
  refine ⟨?_, ?_, ?_, ?_, ?_, ?_, ?_⟩
  · show -2147483648 ≤ wrap32 (s.lock.turn + 1)
    unfold wrap32; omega
  · show wrap32 (s.lock.turn + 1) < 2147483648
    unfold wrap32; omega
  · show s.lock.ticket = wrap32 (wrap32 (s.lock.turn + 1) + ((k - 1 : Nat) : Int))
    rw [h.ticket_eq]
    unfold wrap32; omega
  · intro u m' hu
    dsimp only at hu
    have hut : u ≠ t := by
      intro e; subst e; simp at hu
    rw [hne u hut] at hu
    have h1 := h.spin_pos u m' hu
    have h2 := hpos u hut (by rw [hu]; simp)
    refine ⟨by omega, ?_⟩
    show m' = wrap32 (wrap32 (s.lock.turn + 1) + ((pos u - 1 : Nat) : Int))
    rw [h1.2]
    unfold wrap32; omega
  · intro u m' hu
    dsimp only at hu
    have hut : u ≠ t := by
      intro e; subst e; simp at hu
    rw [hne u hut] at hu
    have h1 := h.crit_pos u m' hu
    have h2 := hpos u hut (by rw [hu]; simp)
    omega
  · intro u v hu hv huv
    obtain ⟨hut, hu'⟩ := hidle u hu
    obtain ⟨hvt, hv'⟩ := hidle v hv
    have h1 := hpos u hut hu'
    have h2 := hpos v hvt hv'
    exact h.inj u v hu' hv' (by omega)
  · intro j hj
    obtain ⟨u, hu, hpu⟩ := h.cover (j + 1) (by omega)
    have hut : u ≠ t := by
      intro e; rw [e] at hpu; omega
    exact ⟨u, by dsimp only; rw [hne u hut]; exact hu, by omega⟩

/-- Every step keeps the ticket bookkeeping, as long as there are at most `2^32` threads. -/
theorem tinv_step {τ : Type} [DecidableEq τ] [Fintype τ]
    (hc : Fintype.card τ ≤ 4294967296) {s : TState τ} {k : Nat} {pos : τ → Nat}
    (h : TInv s k pos) (t : τ) : ∃ k' pos', TInv (tstep s t) k' pos' := by
  cases ht : s.pc t with
  | idle => exact ⟨_, _, tinv_step_idle h t ht⟩
  | spin m => exact ⟨_, _, tinv_step_spin hc h t m ht⟩
  | crit m => exact ⟨_, _, tinv_step_crit h t m ht⟩

theorem treachable_inv {τ : Type} [DecidableEq τ] [Fintype τ]
    (hc : Fintype.card τ ≤ 4294967296) {s : TState τ} (hr : TReachable s) :
    ∃ k pos, TInv s k pos := by
  induction hr with
  | init => exact ⟨0, fun _ => 0, tinv_init τ⟩
  | step s t _ ih =>
    obtain ⟨k, pos, h⟩ := ih
    exact tinv_step hc h t

/-! ### Facts about reachable states of the ticket lock -/

theorem tinv_holds {τ : Type} {s : TState τ} {k : Nat} {pos : τ → Nat}
    (h : TInv s k pos) (t : τ) (m : Int) (ht : s.holds t m) :
    pos t < k ∧ m = wrap32 (s.lock.turn + pos t) := by
  rcases ht with ht | ht
  · exact h.spin_pos t m ht
  · obtain ⟨h0, hk, hm⟩ := h.crit_pos t m ht
    refine ⟨by omega, ?_⟩
    rw [h0, hm]
    have := h.turn_lo
    have := h.turn_hi
    unfold wrap32; omega

theorem holds_not_idle {τ : Type} {s : TState τ} {t : τ} {m : Int} (h : s.holds t m) :
    s.pc t ≠ TPc.idle := by
  rcases h with h | h <;> rw [h] <;> simp

theorem not_idle_holds {τ : Type} {s : TState τ} {t : τ} (h : s.pc t ≠ TPc.idle) :
    ∃ m, s.holds t m := by
  cases hp : s.pc t with
  | idle => exact absurd hp h
  | spin m => exact ⟨m, Or.inl hp⟩
  | crit m => exact ⟨m, Or.inr hp⟩

/-- With at most `2^32` threads, no two threads hold the same ticket. -/
theorem tinv_ticket_inj {τ : Type} [Fintype τ] (hc : Fintype.card τ ≤ 4294967296)
    {s : TState τ} {k : Nat} {pos : τ → Nat} (h : TInv s k pos) (t u : τ) (m : Int)
    (ht : s.holds t m) (hu : s.holds u m) : t = u := by
  have hk := tinv_card h
  obtain ⟨h1, h2⟩ := tinv_holds h t m ht
  obtain ⟨h3, h4⟩ := tinv_holds h u m hu
  apply h.inj t u (holds_not_idle ht) (holds_not_idle hu)
  rw [h2] at h4
  unfold wrap32 at h4
  omega

theorem treachable_trun {τ : Type} [DecidableEq τ] {s : TState τ} (hr : TReachable s)
    (sched : List τ) : TReachable (trun s sched) := by
  induction sched generalizing s with
  | nil => exact hr
  | cons x rest ih => exact ih (TReachable.step s x hr)

theorem trun_append {τ : Type} [DecidableEq τ] (s : TState τ) (p q : List τ) :
    trun s (p ++ q) = trun (trun s p) q := by
  simp [trun, List.foldl_append]

theorem trun_two {τ : Type} [DecidableEq τ] (s : TState τ) (a b : τ) :
    trun s [a, b] = tstep (tstep s a) b := rfl

theorem trun_one {τ : Type} [DecidableEq τ] (s : TState τ) (a : τ) :
    trun s [a] = tstep s a := rfl

theorem treachable_crit_turn {τ : Type} [DecidableEq τ] [Fintype τ]
    (hc : Fintype.card τ ≤ 4294967296) {s : TState τ} (hr : TReachable s) (t : τ) (m : Int)
    (ht : s.pc t = TPc.crit m) : m = s.lock.turn := by
  obtain ⟨k, pos, h⟩ := treachable_inv hc hr
  exact (h.crit_pos t m ht).2.2

theorem treachable_ticket_inj {τ : Type} [DecidableEq τ] [Fintype τ]
    (hc : Fintype.card τ ≤ 4294967296) {s : TState τ} (hr : TReachable s) (t u : τ) (m : Int)
    (ht : s.holds t m) (hu : s.holds u m) : t = u := by
  obtain ⟨k, pos, h⟩ := treachable_inv hc hr
  exact tinv_ticket_inj hc h t u m ht hu

theorem treachable_range {τ : Type} [DecidableEq τ] [Fintype τ]
    (hc : Fintype.card τ ≤ 4294967296) {s : TState τ} (hr : TReachable s) :
    (-2147483648 ≤ s.lock.turn ∧ s.lock.turn < 2147483648)
    ∧ ∀ t m, s.holds t m → -2147483648 ≤ m ∧ m < 2147483648 := by
  obtain ⟨k, pos, h⟩ := treachable_inv hc hr
  refine ⟨⟨h.turn_lo, h.turn_hi⟩, ?_⟩
  intro t m ht
  rw [(tinv_holds h t m ht).2]
  unfold wrap32; omega

theorem treachable_crit_unique {τ : Type} [DecidableEq τ] [Fintype τ]
    (hc : Fintype.card τ ≤ 4294967296) {s : TState τ} (hr : TReachable s) (t u : τ)
    (ht : s.inCrit t) (hu : s.inCrit u) : t = u := by
  obtain ⟨m, hm⟩ := ht
  obtain ⟨m', hm'⟩ := hu
  have h1 := treachable_crit_turn hc hr t m hm
  have h2 := treachable_crit_turn hc hr u m' hm'
  rw [h1] at hm
  rw [h2] at hm'
  exact treachable_ticket_inj hc hr t u _ (Or.inr hm) (Or.inr hm')

/-- C1 (amended): with at most `2^32` threads cycling through `Lock`, critical section,
`Unlock` on a lock that starts at `ticket = turn = 0`, in every reachable state at most one
thread is inside the critical section, and a thread inside it captured `myturn = turn`. -/
theorem ticketLock_mutual_exclusion {τ : Type} [DecidableEq τ] [Fintype τ]
    (hc : Fintype.card τ ≤ 4294967296) (s : TState τ) (hr : TReachable s) :
    (∀ t u, s.inCrit t → s.inCrit u → t = u)
    ∧ ∀ t, s.inCrit t → s.pc t = TPc.crit s.lock.turn := by
  refine ⟨fun t u ht hu => treachable_crit_unique hc hr t u ht hu, ?_⟩
  intro t ⟨m, hm⟩
  rw [hm, treachable_crit_turn hc hr t m hm]

theorem ticketLock_mutual_exclusion_witness :
    Fintype.card (Fin 3) ≤ 4294967296
    ∧ TReachable (trun (tinit (Fin 3)) [0, 1, 0, 2])
    ∧ (trun (tinit (Fin 3)) [0, 1, 0, 2]).inCrit 0
    ∧ (∀ t u : Fin 3, (trun (tinit (Fin 3)) [0, 1, 0, 2]).inCrit t →
        (trun (tinit (Fin 3)) [0, 1, 0, 2]).inCrit u → t = u)
    ∧ ∀ t : Fin 3, (trun (tinit (Fin 3)) [0, 1, 0, 2]).inCrit t →
        (trun (tinit (Fin 3)) [0, 1, 0, 2]).pc t
          = TPc.crit (trun (tinit (Fin 3)) [0, 1, 0, 2]).lock.turn :=
  ⟨by simp, treachable_trun TReachable.init _, ⟨0, by decide⟩,
    ticketLock_mutual_exclusion (by simp) _ (treachable_trun TReachable.init _)⟩

/-! ### Ticket wraparound with more than `2^32` threads -/

theorem thread_val (n i : Nat) (h : i < n + 1) : (thread n i).val = i := by
  simp [thread, Nat.mod_eq_of_lt h]

/-- After the first `i` of `n + 1` threads took a ticket each, `ticket` is `i` (wrapped),
`turn` is still `0` and thread `j < i` waits with `myturn = j` (wrapped). -/
theorem firstThreads_state (n i : Nat) (hi : i ≤ n + 1) :
    (trun (tinit (Fin (n + 1))) (firstThreads n i)).lock.ticket = wrap32 i
    ∧ (trun (tinit (Fin (n + 1))) (firstThreads n i)).lock.turn = 0
    ∧ ∀ t : Fin (n + 1), (trun (tinit (Fin (n + 1))) (firstThreads n i)).pc t
        = if t.val < i then TPc.spin (wrap32 t.val) else TPc.idle := by
  induction i with
  | zero =>
    refine ⟨by simp [firstThreads, trun, tinit, wrap32], by simp [firstThreads, trun, tinit], ?_⟩
    intro t
    simp [firstThreads, trun, tinit]
  | succ i ih =>
    obtain ⟨h1, h2, h3⟩ := ih (by omega)
    have hsched : firstThreads n (i + 1) = firstThreads n i ++ [thread n i] := by
      simp [firstThreads, List.range_succ]
    have hrun : trun (tinit (Fin (n + 1))) (firstThreads n (i + 1))
        = tstep (trun (tinit (Fin (n + 1))) (firstThreads n i)) (thread n i) := by
      rw [hsched, trun_append, trun_one]
    rw [hrun]
    generalize trun (tinit (Fin (n + 1))) (firstThreads n i) = s at h1 h2 h3
    have hv : (thread n i).val = i := thread_val n i (by omega)
    have hidle : s.pc (thread n i) = TPc.idle := by
      rw [h3, hv]; simp
    have hlo : -2147483648 ≤ s.lock.ticket := by rw [h1]; unfold wrap32; omega
    have hhi : s.lock.ticket < 2147483648 := by rw [h1]; unfold wrap32; omega
    have hmy : s.lock.takeTicket.2 = s.lock.ticket := takeTicket_myturn _ hlo hhi
    rw [tstep_idle s _ hidle, hmy]
    refine ⟨?_, h2, ?_⟩
    · show wrap32 (s.lock.ticket + 1) = wrap32 ((i + 1 : Nat) : Int)
      rw [h1, wrap32_wrap_add]; push_cast; rfl
    · intro t
      dsimp only
      by_cases ht : t = thread n i
      · subst ht
        rw [Function.update_same, h1, hv]
        simp
      · rw [Function.update_noteq ht, h3]
        have hne : t.val ≠ i := by
          intro e
          apply ht
          apply Fin.ext
          rw [hv, e]
        by_cases hlt : t.val < i
        · simp [hlt, Nat.lt_succ_of_lt hlt]
        · have : ¬ t.val < i + 1 := by omega
          simp [hlt, this]

/-- Two distinct threads waiting with `myturn = turn` both enter on their next poll. -/
theorem both_enter {τ : Type} [DecidableEq τ] (s : TState τ) (a b : τ) (m : Int) (hab : a ≠ b)
    (h2 : s.lock.turn = m) (ha : s.pc a = TPc.spin m) (hb : s.pc b = TPc.spin m) :
    (tstep (tstep s a) b).pc a = TPc.crit m ∧ (tstep (tstep s a) b).pc b = TPc.crit m := by
  rw [tstep_spin_enter s _ m ha h2]
  have hb2 : (⟨s.lock, Function.update s.pc a (TPc.crit m)⟩ : TState _).pc b = TPc.spin m := by
    dsimp only
    rw [Function.update_noteq hab.symm]; exact hb
  rw [tstep_spin_enter _ _ m hb2 h2]
  refine ⟨?_, ?_⟩
  · dsimp only
    rw [Function.update_noteq hab, Function.update_same]
  · dsimp only
    rw [Function.update_same]

/-- C1 (counterexample): with `2^32 + 1` threads the tickets wrap; after every thread took
a ticket, thread `0` and thread `2^32` both captured `myturn = 0 = turn`, and after one
poll each both are inside the critical section. -/
theorem ticketLock_overlap_counterexample :
    TReachable (trun (tinit (Fin (4294967296 + 1))) overlapSchedule)
    ∧ (trun (tinit (Fin (4294967296 + 1))) overlapSchedule).inCrit (thread 4294967296 0)
    ∧ (trun (tinit (Fin (4294967296 + 1))) overlapSchedule).inCrit (thread 4294967296 4294967296)
    ∧ thread 4294967296 0 ≠ thread 4294967296 4294967296 := by
  obtain ⟨_, h2, h3⟩ := firstThreads_state 4294967296 4294967297 (le_refl _)
  have hrun : trun (tinit (Fin (4294967296 + 1))) overlapSchedule
      = tstep (tstep (trun (tinit (Fin (4294967296 + 1))) (firstThreads 4294967296 4294967297))
          (thread 4294967296 0)) (thread 4294967296 4294967296) := by
    unfold overlapSchedule
    rw [trun_append, trun_two]
  have hva : (thread 4294967296 0).val = 0 := thread_val _ _ (by omega)
  have hvb : (thread 4294967296 4294967296).val = 4294967296 := thread_val _ _ (by omega)
  have hab : thread 4294967296 0 ≠ thread 4294967296 4294967296 := by
    intro e
    have := congrArg Fin.val e
    rw [hva, hvb] at this
    omega
  have ha := h3 (thread 4294967296 0)
  have hb := h3 (thread 4294967296 4294967296)
  rw [hva] at ha
  rw [hvb] at hb
  have w0 : wrap32 ((0 : Nat) : Int) = 0 := by decide
  have w1 : wrap32 ((4294967296 : Nat) : Int) = 0 := by decide
  rw [if_pos (by omega), w0] at ha
  rw [if_pos (by omega), w1] at hb
  have hboth := both_enter _ _ _ 0 hab h2 ha hb
  rw [← hrun] at hboth
  exact ⟨treachable_trun TReachable.init _, ⟨0, hboth.1⟩, ⟨0, hboth.2⟩, hab⟩

/-- C10: with fewer than `2^32` threads, in every reachable state the outstanding tickets
are pairwise distinct and are exactly `turn, turn + 1, ..., ticket - 1` modulo `2^32`; so
when nobody holds the lock and somebody waits, exactly one waiting thread has
`myturn = turn`, and its next poll takes it out of the spin loop. -/
theorem ticketLock_no_stuck_state {τ : Type} [DecidableEq τ] [Fintype τ]
    (hc : Fintype.card τ < 4294967296) (s : TState τ) (hr : TReachable s) :
    (∀ t u m, s.holds t m → s.holds u m → t = u)
    ∧ (∀ m, (∃ t, s.holds t m)
        ↔ (-2147483648 ≤ m ∧ m < 2147483648 ∧ s.ahead m < s.ahead s.lock.ticket))
    ∧ ((∀ t, ¬ s.inCrit t) → (∃ t, s.waiting t) → ∃! t, s.pc t = TPc.spin s.lock.turn)
    ∧ (∀ t, s.pc t = TPc.spin s.lock.turn → (tstep s t).pc t = TPc.crit s.lock.turn) := by
  have hc2 : Fintype.card τ ≤ 4294967296 := by omega
  obtain ⟨k, pos, h⟩ := treachable_inv hc2 hr
  have hk := tinv_card h
  have hlo := h.turn_lo
  have hhi := h.turn_hi
  have hinj : ∀ t u m, s.holds t m → s.holds u m → t = u :=
    fun t u m ht hu => tinv_ticket_inj hc2 h t u m ht hu
  have hahead : s.ahead s.lock.ticket = k := by
    unfold TState.ahead
    rw [h.ticket_eq]
    unfold wrap32; omega
  refine ⟨hinj, ?_, ?_, ?_⟩
  · intro m
    rw [hahead]
    constructor
    · rintro ⟨t, ht⟩
      obtain ⟨h1, h2⟩ := tinv_holds h t m ht
      unfold TState.ahead
      rw [h2]
      unfold wrap32
      omega
    · rintro ⟨h1, h2, h3⟩
      unfold TState.ahead at h3
      have h4 : ((m - s.lock.turn) % 4294967296).toNat < k := by omega
      obtain ⟨t, ht, hpt⟩ := h.cover _ h4
      obtain ⟨m', hm'⟩ := not_idle_holds ht
      obtain ⟨_, h6⟩ := tinv_holds h t m' hm'
      have : m' = m := by
        rw [h6, hpt]
        unfold wrap32
        omega
      rw [this] at hm'
      exact ⟨t, hm'⟩
  · intro hnc ⟨w, mw, hw⟩
    have hk0 : 0 < k := by
      have := (h.spin_pos w mw hw).1
      omega
    obtain ⟨t, ht, hpt⟩ := h.cover 0 hk0
    have hts : s.pc t = TPc.spin s.lock.turn := by
      cases hp : s.pc t with
      | idle => exact absurd hp ht
      | crit m => exact absurd ⟨m, hp⟩ (hnc t)
      | spin m =>
        have := (h.spin_pos t m hp).2
        rw [hpt] at this
        rw [this]
        congr 1
        unfold wrap32; omega
    refine ⟨t, hts, ?_⟩
    intro u hu
    exact hinj u t _ (Or.inl hu) (Or.inl hts)
  · intro t ht
    rw [tstep_spin_enter s t _ ht rfl]
    simp

theorem ticketLock_no_stuck_state_witness :
    Fintype.card (Fin 3) < 4294967296
    ∧ TReachable (trun (tinit (Fin 3)) [0, 1, 0, 2, 0])
    ∧ (∀ t u m, (trun (tinit (Fin 3)) [0, 1, 0, 2, 0]).holds t m →
        (trun (tinit (Fin 3)) [0, 1, 0, 2, 0]).holds u m → t = u)
    ∧ (∀ m, (∃ t, (trun (tinit (Fin 3)) [0, 1, 0, 2, 0]).holds t m)
        ↔ (-2147483648 ≤ m ∧ m < 2147483648
            ∧ (trun (tinit (Fin 3)) [0, 1, 0, 2, 0]).ahead m
              < (trun (tinit (Fin 3)) [0, 1, 0, 2, 0]).ahead
                  (trun (tinit (Fin 3)) [0, 1, 0, 2, 0]).lock.ticket))
    ∧ ((∀ t, ¬ (trun (tinit (Fin 3)) [0, 1, 0, 2, 0]).inCrit t) →
        (∃ t, (trun (tinit (Fin 3)) [0, 1, 0, 2, 0]).waiting t) →
        ∃! t, (trun (tinit (Fin 3)) [0, 1, 0, 2, 0]).pc t
          = TPc.spin (trun (tinit (Fin 3)) [0, 1, 0, 2, 0]).lock.turn)
    ∧ (∀ t, (trun (tinit (Fin 3)) [0, 1, 0, 2, 0]).pc t
          = TPc.spin (trun (tinit (Fin 3)) [0, 1, 0, 2, 0]).lock.turn →
        (tstep (trun (tinit (Fin 3)) [0, 1, 0, 2, 0]) t).pc t
          = TPc.crit (trun (tinit (Fin 3)) [0, 1, 0, 2, 0]).lock.turn) :=
  ⟨by simp, treachable_trun TReachable.init _,
    ticketLock_no_stuck_state (by simp) _ (treachable_trun TReachable.init _)⟩

/-- C7 (amended): with at most `2^32` threads, from every reachable state a step either
is taken by a thread outside the critical section and leaves `turn` unchanged, or is the
`Unlock` of the one thread inside the critical section: it increases `turn` by exactly one
modulo `2^32`, leaves `ticket` unchanged, and afterwards at most one waiting thread has
`myturn` equal to `turn`. -/
theorem ticketLock_turn_discipline {τ : Type} [DecidableEq τ] [Fintype τ]
    (hc : Fintype.card τ ≤ 4294967296) (s : TState τ) (hr : TReachable s) (t : τ) :
    (¬ s.inCrit t ∧ (tstep s t).lock.turn = s.lock.turn)
    ∨ (s.pc t = TPc.crit s.lock.turn
        ∧ (∀ u, s.inCrit u → u = t)
        ∧ (tstep s t).lock.turn = wrap32 (s.lock.turn + 1)
        ∧ (tstep s t).lock.turn ≠ s.lock.turn
        ∧ (tstep s t).lock.ticket = s.lock.ticket
        ∧ (tstep s t).pc t = TPc.idle
        ∧ ∀ u v, (tstep s t).pc u = TPc.spin (tstep s t).lock.turn →
            (tstep s t).pc v = TPc.spin (tstep s t).lock.turn → u = v) := by
  cases ht : s.pc t with
  | idle =>
    left
    refine ⟨?_, ?_⟩
    · rintro ⟨m, hm⟩; rw [ht] at hm; exact absurd hm (by simp)
    · rw [tstep_idle s t ht]; rfl
  | spin m =>
    left
    refine ⟨?_, ?_⟩
    · rintro ⟨m', hm⟩; rw [ht] at hm; exact absurd hm (by simp)
    · by_cases hm : s.lock.turn = m
      · rw [tstep_spin_enter s t m ht hm]
      · rw [tstep_spin_stay s t m ht hm]
  | crit m =>
    right
    have hm := treachable_crit_turn hc hr t m ht
    have hrange := (treachable_range hc hr).1
    have hr2 : TReachable (tstep s t) := TReachable.step s t hr
    refine ⟨by rw [hm], ?_, ?_, ?_, ?_, ?_, ?_⟩
    · intro u hu
      exact treachable_crit_unique hc hr u t hu ⟨m, ht⟩
    · rw [tstep_crit s t m ht]; rfl
    · rw [tstep_crit s t m ht]
      show wrap32 (s.lock.turn + 1) ≠ s.lock.turn
      unfold wrap32; omega
    · rw [tstep_crit s t m ht]; rfl
    · rw [tstep_crit s t m ht]; simp
    · intro u v hu hv
      exact treachable_ticket_inj hc hr2 u v _ (Or.inl hu) (Or.inl hv)

theorem ticketLock_turn_discipline_witness :
    Fintype.card (Fin 3) ≤ 4294967296
    ∧ TReachable (trun (tinit (Fin 3)) [0, 1, 0, 2])
    ∧ ((¬ (trun (tinit (Fin 3)) [0, 1, 0, 2]).inCrit 0
        ∧ (tstep (trun (tinit (Fin 3)) [0, 1, 0, 2]) 0).lock.turn
          = (trun (tinit (Fin 3)) [0, 1, 0, 2]).lock.turn)
      ∨ ((trun (tinit (Fin 3)) [0, 1, 0, 2]).pc 0
          = TPc.crit (trun (tinit (Fin 3)) [0, 1, 0, 2]).lock.turn
        ∧ (∀ u, (trun (tinit (Fin 3)) [0, 1, 0, 2]).inCrit u → u = 0)
        ∧ (tstep (trun (tinit (Fin 3)) [0, 1, 0, 2]) 0).lock.turn
          = wrap32 ((trun (tinit (Fin 3)) [0, 1, 0, 2]).lock.turn + 1)
        ∧ (tstep (trun (tinit (Fin 3)) [0, 1, 0, 2]) 0).lock.turn
          ≠ (trun (tinit (Fin 3)) [0, 1, 0, 2]).lock.turn
        ∧ (tstep (trun (tinit (Fin 3)) [0, 1, 0, 2]) 0).lock.ticket
          = (trun (tinit (Fin 3)) [0, 1, 0, 2]).lock.ticket
        ∧ (tstep (trun (tinit (Fin 3)) [0, 1, 0, 2]) 0).pc 0 = TPc.idle
        ∧ ∀ u v, (tstep (trun (tinit (Fin 3)) [0, 1, 0, 2]) 0).pc u
              = TPc.spin (tstep (trun (tinit (Fin 3)) [0, 1, 0, 2]) 0).lock.turn →
            (tstep (trun (tinit (Fin 3)) [0, 1, 0, 2]) 0).pc v
              = TPc.spin (tstep (trun (tinit (Fin 3)) [0, 1, 0, 2]) 0).lock.turn → u = v)) :=
  ⟨by simp, treachable_trun TReachable.init _,
    ticketLock_turn_discipline (by simp) _ (treachable_trun TReachable.init _) 0⟩

/-- A thread with `myturn = turn = 0` enters and unlocks while two other threads wait
with `myturn = 1`: both of them then have `myturn = turn`. -/
theorem two_next {τ : Type} [DecidableEq τ] (s : TState τ) (a u v : τ) (hau : u ≠ a)
    (hav : v ≠ a) (h2 : s.lock.turn = 0) (ha : s.pc a = TPc.spin 0)
    (hu : s.pc u = TPc.spin 1) (hv : s.pc v = TPc.spin 1) :
    (tstep s a).lock.turn = 0 ∧ (tstep s a).pc a = TPc.crit 0
    ∧ (tstep (tstep s a) a).lock.turn = 1 ∧ (tstep (tstep s a) a).pc u = TPc.spin 1
    ∧ (tstep (tstep s a) a).pc v = TPc.spin 1 := by
  rw [tstep_spin_enter s a 0 ha h2]
  have hc : (⟨s.lock, Function.update s.pc a (TPc.crit 0)⟩ : TState τ).pc a = TPc.crit 0 := by
    dsimp only; rw [Function.update_same]
  rw [tstep_crit _ a 0 hc]
  refine ⟨h2, hc, ?_, ?_, ?_⟩
  · show wrap32 (s.lock.turn + 1) = 1
    rw [h2]; decide
  · dsimp only; rw [Function.update_noteq hau, Function.update_noteq hau]; exact hu
  · dsimp only; rw [Function.update_noteq hav, Function.update_noteq hav]; exact hv

/-- C7 (counterexample): with `2^32 + 2` threads, after every thread took a ticket and
thread `0` entered, the `Unlock` of thread `0` moves `turn` from `0` to `1`, and then two
waiting threads, thread `1` and thread `2^32 + 1`, both have `myturn = 1 = turn`. -/
theorem ticketLock_turn_counterexample :
    TReachable (trun (tinit (Fin (4294967297 + 1))) passedSchedule)
    ∧ (trun (tinit (Fin (4294967297 + 1))) passedSchedule).lock.turn = 0
    ∧ (trun (tinit (Fin (4294967297 + 1))) passedSchedule).pc (thread 4294967297 0)
        = TPc.crit 0
    ∧ (tstep (trun (tinit (Fin (4294967297 + 1))) passedSchedule)
        (thread 4294967297 0)).lock.turn = 1
    ∧ (tstep (trun (tinit (Fin (4294967297 + 1))) passedSchedule)
        (thread 4294967297 0)).pc (thread 4294967297 1) = TPc.spin 1
    ∧ (tstep (trun (tinit (Fin (4294967297 + 1))) passedSchedule)
        (thread 4294967297 0)).pc (thread 4294967297 4294967297) = TPc.spin 1
    ∧ thread 4294967297 1 ≠ thread 4294967297 4294967297 := by
  obtain ⟨_, h2, h3⟩ := firstThreads_state 4294967297 4294967298 (le_refl _)
  have hrun : trun (tinit (Fin (4294967297 + 1))) passedSchedule
      = tstep (trun (tinit (Fin (4294967297 + 1))) (firstThreads 4294967297 4294967298))
          (thread 4294967297 0) := by
    unfold passedSchedule
    rw [trun_append, trun_one]
  have hva : (thread 4294967297 0).val = 0 := thread_val _ _ (by omega)
  have hvu : (thread 4294967297 1).val = 1 := thread_val _ _ (by omega)
  have hvv : (thread 4294967297 4294967297).val = 4294967297 := thread_val _ _ (by omega)
  have hau : thread 4294967297 1 ≠ thread 4294967297 0 := by
    intro e
    have := congrArg Fin.val e
    rw [hva, hvu] at this
    omega
  have hav : thread 4294967297 4294967297 ≠ thread 4294967297 0 := by
    intro e
    have := congrArg Fin.val e
    rw [hva, hvv] at this
    omega
  have huv : thread 4294967297 1 ≠ thread 4294967297 4294967297 := by
    intro e
    have := congrArg Fin.val e
    rw [hvu, hvv] at this
    omega
  have ha := h3 (thread 4294967297 0)
  have hu := h3 (thread 4294967297 1)
  have hv := h3 (thread 4294967297 4294967297)
  rw [hva] at ha
  rw [hvu] at hu
  rw [hvv] at hv
  have w0 : wrap32 ((0 : Nat) : Int) = 0 := by decide
  have w1 : wrap32 ((1 : Nat) : Int) = 1 := by decide
  have w2 : wrap32 ((4294967297 : Nat) : Int) = 1 := by decide
  rw [if_pos (by omega), w0] at ha
  rw [if_pos (by omega), w1] at hu
  rw [if_pos (by omega), w2] at hv
  have hcore := two_next _ _ _ _ hau hav h2 ha hu hv
  rw [← hrun] at hcore
  obtain ⟨r1, r2, r3, r4, r5⟩ := hcore
  exact ⟨treachable_trun TReachable.init _, r1, r2, r3, r4, r5, huv⟩

/-! ### FIFO order of the ticket lock -/

/-- One step keeps two waiting threads in their order, unless the one ahead enters. -/
theorem fifo_step {τ : Type} [DecidableEq τ] [Fintype τ]
    (hc : Fintype.card τ ≤ 4294967296) {s : TState τ} (hr : TReachable s) (A B : τ)
    (a b : Int) (hA : s.pc A = TPc.spin a) (hB : s.pc B = TPc.spin b)
    (hab : s.ahead a < s.ahead b) (x : τ) :
    ((tstep s x).pc A = TPc.crit a ∧ (tstep s x).pc B = TPc.spin b)
    ∨ ((tstep s x).pc A = TPc.spin a ∧ (tstep s x).pc B = TPc.spin b
        ∧ (tstep s x).ahead a < (tstep s x).ahead b) := by
  have hAB : A ≠ B := by
    intro e
    rw [e, hB] at hA
    injection hA with hA
    rw [hA] at hab
    exact lt_irrefl _ hab
  cases hx : s.pc x with
  | idle =>
    have hxA : A ≠ x := by intro e; rw [e, hx] at hA; exact absurd hA (by simp)
    have hxB : B ≠ x := by intro e; rw [e, hx] at hB; exact absurd hB (by simp)
    right
    rw [tstep_idle s x hx]
    refine ⟨?_, ?_, hab⟩
    · dsimp only; rw [Function.update_noteq hxA]; exact hA
    · dsimp only; rw [Function.update_noteq hxB]; exact hB
  | spin m =>
    by_cases hm : s.lock.turn = m
    · rw [tstep_spin_enter s x m hx hm]
      by_cases hxA : A = x
      · left
        subst hxA
        rw [hA] at hx
        injection hx with hx
        refine ⟨?_, ?_⟩
        · dsimp only; rw [Function.update_same, hx]
        · dsimp only; rw [Function.update_noteq hAB.symm]; exact hB
      · have hxB : B ≠ x := by
          intro e
          rw [e, hx] at hB
          injection hB with hB
          unfold TState.ahead at hab
          rw [← hB, ← hm] at hab
          omega
        right
        refine ⟨?_, ?_, hab⟩
        · dsimp only; rw [Function.update_noteq hxA]; exact hA
        · dsimp only; rw [Function.update_noteq hxB]; exact hB
    · right
      rw [tstep_spin_stay s x m hx hm]
      exact ⟨hA, hB, hab⟩
  | crit m =>
    have hxA : A ≠ x := by intro e; rw [e, hx] at hA; exact absurd hA (by simp)
    have hxB : B ≠ x := by intro e; rw [e, hx] at hB; exact absurd hB (by simp)
    have hm := treachable_crit_turn hc hr x m hx
    obtain ⟨⟨hlo, hhi⟩, hrange⟩ := treachable_range hc hr
    have hra := hrange A a (Or.inl hA)
    have hrb := hrange B b (Or.inl hB)
    have hat : a ≠ s.lock.turn := by
      intro e
      apply hxA
      apply treachable_ticket_inj hc hr A x a (Or.inl hA)
      rw [e, ← hm]; exact Or.inr hx
    have hbt : b ≠ s.lock.turn := by
      intro e
      apply hxB
      apply treachable_ticket_inj hc hr B x b (Or.inl hB)
      rw [e, ← hm]; exact Or.inr hx
    right
    rw [tstep_crit s x m hx]
    refine ⟨?_, ?_, ?_⟩
    · dsimp only; rw [Function.update_noteq hxA]; exact hA
    · dsimp only; rw [Function.update_noteq hxB]; exact hB
    · unfold TState.ahead at hab ⊢
      show (a - wrap32 (s.lock.turn + 1)) % 4294967296 < (b - wrap32 (s.lock.turn + 1)) % 4294967296
      unfold wrap32
      omega

theorem fifo_run {τ : Type} [DecidableEq τ] [Fintype τ]
    (hc : Fintype.card τ ≤ 4294967296) (A B : τ) (a b : Int) (sched : List τ) :
    ∀ s : TState τ, TReachable s → s.pc A = TPc.spin a → s.pc B = TPc.spin b →
      s.ahead a < s.ahead b → (trun s sched).pc B ≠ TPc.spin b →
      ∃ p, p <+: sched ∧ (trun s p).pc A = TPc.crit a ∧ (trun s p).pc B = TPc.spin b := by
  induction sched with
  | nil =>
    intro s _ _ hB _ hB2
    exact absurd hB hB2
  | cons x rest ih =>
    intro s hr hA hB hab hB2
    rcases fifo_step hc hr A B a b hA hB hab x with ⟨h1, h2⟩ | ⟨h1, h2, h3⟩
    · exact ⟨[x], ⟨rest, rfl⟩, h1, h2⟩
    · obtain ⟨p, hp, hpA, hpB⟩ := ih (tstep s x) (TReachable.step s x hr) h1 h2 h3 hB2
      obtain ⟨q, hq⟩ := hp
      exact ⟨x :: p, ⟨q, by rw [← hq]; rfl⟩, hpA, hpB⟩

/-- C3 (amended): with at most `2^32` threads, if `A` and `B` wait at the same time and
`A`'s ticket is nearer to `turn` than `B`'s (counting upwards from `turn` modulo `2^32`,
which is the order in which the tickets were handed out), then `B` is still waiting as long
as `A` is, and along every schedule after which `B` no longer waits there is an earlier
point where `A` has entered the critical section while `B` still waits. -/
theorem ticketLock_fifo {τ : Type} [DecidableEq τ] [Fintype τ]
    (hc : Fintype.card τ ≤ 4294967296) (s : TState τ) (hr : TReachable s) (A B : τ)
    (a b : Int) (hA : s.pc A = TPc.spin a) (hB : s.pc B = TPc.spin b)
    (hab : s.ahead a < s.ahead b) (sched : List τ) :
    ((∀ p, p <+: sched → (trun s p).pc A = TPc.spin a) → (trun s sched).pc B = TPc.spin b)
    ∧ ((trun s sched).pc B ≠ TPc.spin b →
        ∃ p, p <+: sched ∧ p ≠ sched ∧ (trun s p).pc A = TPc.crit a
          ∧ (trun s p).pc B = TPc.spin b) := by
  refine ⟨?_, ?_⟩
  · intro hall
    by_contra hB2
    obtain ⟨p, hp, hpA, _⟩ := fifo_run hc A B a b sched s hr hA hB hab hB2
    rw [hall p hp] at hpA
    exact absurd hpA (by simp)
  · intro hB2
    obtain ⟨p, hp, hpA, hpB⟩ := fifo_run hc A B a b sched s hr hA hB hab hB2
    refine ⟨p, hp, ?_, hpA, hpB⟩
    intro e
    rw [e] at hpB
    exact hB2 hpB

theorem ticketLock_fifo_witness :
    Fintype.card (Fin 3) ≤ 4294967296
    ∧ TReachable (trun (tinit (Fin 3)) [0, 1, 2])
    ∧ (trun (tinit (Fin 3)) [0, 1, 2]).pc 1 = TPc.spin 1
    ∧ (trun (tinit (Fin 3)) [0, 1, 2]).pc 2 = TPc.spin 2
    ∧ (trun (tinit (Fin 3)) [0, 1, 2]).ahead 1 < (trun (tinit (Fin 3)) [0, 1, 2]).ahead 2
    ∧ ((∀ p, p <+: [0, 0, 1, 1, 2] →
          (trun (trun (tinit (Fin 3)) [0, 1, 2]) p).pc 1 = TPc.spin 1) →
        (trun (trun (tinit (Fin 3)) [0, 1, 2]) [0, 0, 1, 1, 2]).pc 2 = TPc.spin 2)
    ∧ ((trun (trun (tinit (Fin 3)) [0, 1, 2]) [0, 0, 1, 1, 2]).pc 2 ≠ TPc.spin 2 →
        ∃ p, p <+: [0, 0, 1, 1, 2] ∧ p ≠ [0, 0, 1, 1, 2]
          ∧ (trun (trun (tinit (Fin 3)) [0, 1, 2]) p).pc 1 = TPc.crit 1
          ∧ (trun (trun (tinit (Fin 3)) [0, 1, 2]) p).pc 2 = TPc.spin 2) :=
  ⟨by simp, treachable_trun TReachable.init _, by decide, by decide, by decide,
    ticketLock_fifo (by simp) _ (treachable_trun TReachable.init _) 1 2 1 2
      (by decide) (by decide) (by decide) [0, 0, 1, 1, 2]⟩

/-! ### Ticket wraparound after `2^31` acquisitions -/

/-- One uncontended `Lock`/`Unlock` cycle moves both counters up by one. -/
theorem cycle_once {τ : Type} [DecidableEq τ] (s : TState τ) (t : τ) (v : Int)
    (lo : -2147483648 ≤ v) (hi : v < 2147483648) (hl : s.lock = ⟨v, v⟩)
    (hp : ∀ u, s.pc u = TPc.idle) :
    (tstep (tstep (tstep s t) t) t).lock = ⟨wrap32 (v + 1), wrap32 (v + 1)⟩
    ∧ ∀ u, (tstep (tstep (tstep s t) t) t).pc u = TPc.idle := by
  have hmy : s.lock.takeTicket.2 = v := by
    rw [takeTicket_myturn s.lock (by rw [hl]; exact lo) (by rw [hl]; exact hi), hl]
  have hl1 : s.lock.takeTicket.1 = ⟨wrap32 (v + 1), v⟩ := by
    rw [hl]; rfl
  rw [tstep_idle s t (hp t), hmy, hl1]
  have e1 : (⟨⟨wrap32 (v + 1), v⟩, Function.update s.pc t (TPc.spin v)⟩ : TState τ).pc t
      = TPc.spin v := Function.update_same _ _ _
  rw [tstep_spin_enter _ t v e1 rfl]
  have e2 : (⟨⟨wrap32 (v + 1), v⟩, Function.update (Function.update s.pc t (TPc.spin v)) t
      (TPc.crit v)⟩ : TState τ).pc t = TPc.crit v := Function.update_same _ _ _
  rw [tstep_crit _ t v e2]
  refine ⟨rfl, ?_⟩
  intro u
  dsimp only
  by_cases hu : u = t
  · rw [hu, Function.update_same]
  · rw [Function.update_noteq hu, Function.update_noteq hu, Function.update_noteq hu]
    exact hp u

/-- After `n` uncontended cycles both counters stand at `n` (wrapped) above their start. -/
theorem cycle_state {τ : Type} [DecidableEq τ] (t : τ) (n : Nat) :
    ∀ (s : TState τ) (v : Int), -2147483648 ≤ v → v < 2147483648 → s.lock = ⟨v, v⟩ →
      (∀ u, s.pc u = TPc.idle) →
      (trun s (cycleSchedule t n)).lock = ⟨wrap32 (v + n), wrap32 (v + n)⟩
      ∧ ∀ u, (trun s (cycleSchedule t n)).pc u = TPc.idle := by
  induction n with
  | zero =>
    intro s v lo hi hl hp
    refine ⟨?_, hp⟩
    show s.lock = _
    rw [hl]
    simp [wrap32_id v lo hi]
  | succ n ih =>
    intro s v lo hi hl hp
    obtain ⟨h1, h2⟩ := cycle_once s t v lo hi hl hp
    have hrun : trun s (cycleSchedule t (n + 1))
        = trun (tstep (tstep (tstep s t) t) t) (cycleSchedule t n) := rfl
    rw [hrun]
    obtain ⟨h3, h4⟩ := ih _ (wrap32 (v + 1)) (by unfold wrap32; omega) (by unfold wrap32; omega)
      h1 h2
    refine ⟨?_, h4⟩
    rw [h3, wrap32_wrap_add]
    have : v + 1 + (n : Int) = v + ((n + 1 : Nat) : Int) := by push_cast; ring
    rw [this]

/-- Two idle threads take tickets at `ticket = turn = 2^31 - 1`: the first gets `2^31 - 1`,
the second the wrapped `-2^31`, and the first one enters on its next poll. -/
theorem wrap_pair {τ : Type} [DecidableEq τ] (s : TState τ) (a b : τ) (hab : a ≠ b)
    (hl : s.lock = ⟨2147483647, 2147483647⟩) (hp : ∀ u, s.pc u = TPc.idle) :
    (tstep (tstep s a) b).pc b = TPc.spin (-2147483648)
    ∧ (tstep (tstep s a) b).pc a = TPc.spin 2147483647
    ∧ (tstep (tstep (tstep s a) b) a).pc a = TPc.crit 2147483647
    ∧ (tstep (tstep (tstep s a) b) a).pc b = TPc.spin (-2147483648) := by
  have hmy : s.lock.takeTicket = (⟨-2147483648, 2147483647⟩, 2147483647) := by
    rw [hl]; decide
  rw [tstep_idle s a (hp a), hmy]
  have hb : (⟨⟨-2147483648, 2147483647⟩, Function.update s.pc a (TPc.spin 2147483647)⟩ :
      TState τ).pc b = TPc.idle := by
    dsimp only; rw [Function.update_noteq hab.symm]; exact hp b
  have hmy2 : (⟨-2147483648, 2147483647⟩ : TicketLock).takeTicket
      = (⟨-2147483647, 2147483647⟩, -2147483648) := by decide
  rw [tstep_idle _ b hb]
  dsimp only
  rw [hmy2]
  have ha2 : (⟨⟨-2147483647, 2147483647⟩, Function.update
      (Function.update s.pc a (TPc.spin 2147483647)) b (TPc.spin (-2147483648))⟩ :
      TState τ).pc a = TPc.spin 2147483647 := by
    dsimp only; rw [Function.update_noteq hab, Function.update_same]
  rw [tstep_spin_enter _ a 2147483647 ha2 rfl]
  refine ⟨?_, ha2, ?_, ?_⟩
  · dsimp only; rw [Function.update_same]
  · dsimp only; rw [Function.update_same]
  · dsimp only; rw [Function.update_noteq hab.symm, Function.update_same]

/-- C3 (counterexample): after `2^31 - 1` acquisitions the next two tickets are
`2^31 - 1` (thread `0`) and the wrapped `-2^31` (thread `1`). Both threads wait at the same
time, thread `1` holds the strictly smaller `int32` ticket, and yet the `Lock` of thread
`0` returns while thread `1` is still waiting. -/
theorem ticketLock_fifo_counterexample :
    TReachable (trun (tinit (Fin 2)) wrapSchedule)
    ∧ (trun (tinit (Fin 2)) wrapSchedule).pc 1 = TPc.spin (-2147483648)
    ∧ (trun (tinit (Fin 2)) wrapSchedule).pc 0 = TPc.spin 2147483647
    ∧ (-2147483648 : Int) < 2147483647
    ∧ (tstep (trun (tinit (Fin 2)) wrapSchedule) 0).pc 0 = TPc.crit 2147483647
    ∧ (tstep (trun (tinit (Fin 2)) wrapSchedule) 0).pc 1 = TPc.spin (-2147483648) := by
  obtain ⟨h1, h2⟩ := cycle_state (0 : Fin 2) 2147483647 (tinit (Fin 2)) 0 (by omega) (by omega)
    rfl (fun _ => rfl)
  have hrun : trun (tinit (Fin 2)) wrapSchedule
      = tstep (tstep (trun (tinit (Fin 2)) (cycleSchedule 0 2147483647)) 0) 1 := by
    unfold wrapSchedule
    rw [trun_append, trun_two]
  have hw : wrap32 (0 + ((2147483647 : Nat) : Int)) = 2147483647 := by decide
  rw [hw] at h1
  obtain ⟨r1, r2, r3, r4⟩ := wrap_pair _ (0 : Fin 2) 1 (by decide) h1 h2
  rw [← hrun] at r1 r2 r3 r4
  exact ⟨treachable_trun TReachable.init _, r1, r2, by omega, r3, r4⟩

/-! ### CASLock -/

theorem cstep_crit {τ : Type} [DecidableEq τ] (s : CState τ) (t : τ) (h : s.pc t = CPc.crit) :
    cstep s t = ⟨⟨0⟩, Function.update s.pc t CPc.idle⟩ := by
  simp only [cstep, h, CASLock.Unlock]

theorem cstep_win {τ : Type} [DecidableEq τ] (s : CState τ) (t : τ) (h : s.pc t ≠ CPc.crit)
    (hf : s.lock.flag = 0) : cstep s t = ⟨⟨1⟩, Function.update s.pc t CPc.crit⟩ := by
  cases hp : s.pc t with
  | crit => exact absurd hp h
  | idle => simp [cstep, hp, CASLock.compareAndSwap, hf]
  | spin => simp [cstep, hp, CASLock.compareAndSwap, hf]

theorem cstep_fail {τ : Type} [DecidableEq τ] (s : CState τ) (t : τ) (h : s.pc t ≠ CPc.crit)
    (hf : s.lock.flag ≠ 0) : cstep s t = ⟨s.lock, Function.update s.pc t CPc.spin⟩ := by
  cases hp : s.pc t with
  | crit => exact absurd hp h
  | idle => simp [cstep, hp, CASLock.compareAndSwap, hf]
  | spin => simp [cstep, hp, CASLock.compareAndSwap, hf]

theorem cinv_step {τ : Type} [DecidableEq τ] (s : CState τ) (t : τ) (h : CInv s) :
    CInv (cstep s t) := by
  rcases h with ⟨hf, hn⟩ | ⟨hf, w, hw, huniq⟩
  · right
    rw [cstep_win s t (hn t) hf]
    refine ⟨rfl, t, by simp, ?_⟩
    intro u hu
    by_contra hut
    dsimp only at hu
    rw [Function.update_noteq hut] at hu
    exact hn u hu
  · by_cases ht : s.pc t = CPc.crit
    · left
      rw [cstep_crit s t ht]
      refine ⟨rfl, ?_⟩
      intro u hu
      dsimp only at hu
      by_cases hut : u = t
      · rw [hut, Function.update_same] at hu
        exact absurd hu (by simp)
      · rw [Function.update_noteq hut] at hu
        exact hut ((huniq u hu).trans (huniq t ht).symm)
    · right
      rw [cstep_fail s t ht (by rw [hf]; decide)]
      have hwt : w ≠ t := by intro e; rw [e] at hw; exact ht hw
      refine ⟨hf, w, ?_, ?_⟩
      · dsimp only; rw [Function.update_noteq hwt]; exact hw
      · intro u hu
        dsimp only at hu
        by_cases hut : u = t
        · rw [hut, Function.update_same] at hu
          exact absurd hu (by simp)
        · rw [Function.update_noteq hut] at hu
          exact huniq u hu

theorem creachable_inv {τ : Type} [DecidableEq τ] {s : CState τ} (hr : CReachable s) :
    CInv s := by
  induction hr with
  | init => exact Or.inl ⟨rfl, fun _ => by simp [cinit]⟩
  | step s t _ ih => exact cinv_step s t ih

theorem creachable_crun {τ : Type} [DecidableEq τ] {s : CState τ} (hr : CReachable s)
    (sched : List τ) : CReachable (crun s sched) := by
  induction sched generalizing s with
  | nil => exact hr
  | cons x rest ih => exact ih (CReachable.step s x hr)

/-- C2: in every state reachable from a fresh `CASLock` at most one thread is inside the
critical section; the flag is `0` or `1`, and `1` exactly while a thread is inside. A step
that takes the flag from `0` to `1` is the compare-and-swap of one thread outside the
critical section, which enters, while every other thread stays where it was, outside; and
while the flag is `1` every attempt of another thread fails and leaves the flag alone. -/
theorem casLock_mutual_exclusion {τ : Type} [DecidableEq τ] (s : CState τ)
    (hr : CReachable s) :
    (∀ t u, s.pc t = CPc.crit → s.pc u = CPc.crit → t = u)
    ∧ (s.lock.flag = 0 ∨ s.lock.flag = 1)
    ∧ (s.lock.flag = 1 ↔ ∃ t, s.pc t = CPc.crit)
    ∧ (∀ t, s.lock.flag = 0 → (cstep s t).lock.flag = 1 →
        s.pc t ≠ CPc.crit ∧ (cstep s t).pc t = CPc.crit
        ∧ ∀ w, w ≠ t → (cstep s t).pc w = s.pc w ∧ (cstep s t).pc w ≠ CPc.crit)
    ∧ (∀ t, s.lock.flag = 0 → s.pc t ≠ CPc.crit →
        (cstep s t).lock.flag = 1 ∧ (cstep s t).pc t = CPc.crit)
    ∧ (∀ t, s.lock.flag = 1 → s.pc t ≠ CPc.crit →
        (cstep s t).lock.flag = 1 ∧ (cstep s t).pc t = CPc.spin) := by
  have h := creachable_inv hr
  refine ⟨?_, ?_, ?_, ?_, ?_, ?_⟩
  · intro t u ht hu
    rcases h with ⟨_, hn⟩ | ⟨_, w, _, huniq⟩
    · exact absurd ht (hn t)
    · exact (huniq t ht).trans (huniq u hu).symm
  · rcases h with ⟨hf, _⟩ | ⟨hf, _⟩
    · exact Or.inl hf
    · exact Or.inr hf
  · rcases h with ⟨hf, hn⟩ | ⟨hf, w, hw, _⟩
    · constructor
      · intro h1; rw [hf] at h1; exact absurd h1 (by decide)
      · rintro ⟨t, ht⟩; exact absurd ht (hn t)
    · exact ⟨fun _ => ⟨w, hw⟩, fun _ => hf⟩
  · intro t hf _
    rcases h with ⟨_, hn⟩ | ⟨hf1, _⟩
    · rw [cstep_win s t (hn t) hf]
      refine ⟨hn t, by simp, ?_⟩
      intro w hw
      dsimp only
      rw [Function.update_noteq hw]
      exact ⟨rfl, hn w⟩
    · rw [hf] at hf1; exact absurd hf1 (by decide)
  · intro t hf ht
    rw [cstep_win s t ht hf]
    exact ⟨rfl, by simp⟩
  · intro t hf ht
    rw [cstep_fail s t ht (by rw [hf]; decide)]
    exact ⟨hf, by simp⟩

theorem casLock_mutual_exclusion_witness :
    CReachable (crun (cinit (Fin 3)) [0, 1, 2, 0, 2])
    ∧ (∀ t u, (crun (cinit (Fin 3)) [0, 1, 2, 0, 2]).pc t = CPc.crit →
        (crun (cinit (Fin 3)) [0, 1, 2, 0, 2]).pc u = CPc.crit → t = u)
    ∧ (crun (cinit (Fin 3)) [0, 1, 2, 0, 2]).pc 2 = CPc.crit
    ∧ (crun (cinit (Fin 3)) [0, 1, 2, 0, 2]).pc 1 = CPc.spin
    ∧ (crun (cinit (Fin 3)) [0, 1, 2, 0, 2]).lock.flag = 1 :=
  ⟨creachable_crun CReachable.init _,
    (casLock_mutual_exclusion _ (creachable_crun CReachable.init _)).1,
    by decide, by decide, by decide⟩

/-! ### main -/

/-- C5: whatever `benchmarkLock` computes, `main` prints the header first and then one row
per entry of the sweep `2, 5, 10, 20, 50`, in that order; the row of worker count `g`
carries `g`, then the result for a fresh `TicketLock` (`ticket = turn = 0`), then the result
for a fresh `CASLock` (`flag = 0`), each run with `g` workers and `1000` iterations. -/
theorem main_output_order (bench : LockValue → Int → Int → Int) :
    main bench
      = ⟨ "%-12s %-12s %-12s\n", [Arg.str "Goroutines", Arg.str "TicketLock", Arg.str "CASLock"]⟩
        :: [2, 5, 10, 20, 50].map (fun g : Int =>
            ⟨ "%-12d %-12v %-12v\n",
              [Arg.int g, Arg.dur (bench (LockValue.ticket ⟨0, 0⟩) g 1000),
                Arg.dur (bench (LockValue.cas ⟨0⟩) g 1000)]⟩)
    ∧ (main bench).length = 6 := by
  constructor <;> rfl

/-! ### The wait-time accumulator -/

theorem wrap64_id (x : Int) (lo : -9223372036854775808 ≤ x) (hi : x < 9223372036854775808) :
    wrap64 x = x := by
  unfold wrap64; omega

theorem wrap64_wrap_add (a b : Int) : wrap64 (wrap64 a + b) = wrap64 (a + b) := by
  unfold wrap64; omega

theorem runWorkers_snoc (wait : Nat → Nat → Int) (G I : Int) (sched : List Nat) (g : Nat) :
    runWorkers wait G I (sched ++ [g]) = addStep wait G I (runWorkers wait G I sched) g := by
  simp [runWorkers, List.foldl_append]

theorem exactSum_update (wait : Nat → Nat → Int) (G : Int) (k : Nat → Nat) (g : Nat)
    (hg : g < G.toNat) :
    exactSum wait G (Function.update k g (k g + 1)) = exactSum wait G k + wait g (k g) := by
  unfold exactSum
  have hmem : g ∈ Finset.range G.toNat := Finset.mem_range.2 hg
  rw [← Finset.add_sum_erase _ _ hmem, ← Finset.add_sum_erase (Finset.range G.toNat) _ hmem]
  have hrest : ∑ x ∈ (Finset.range G.toNat).erase g,
        ∑ i ∈ Finset.range (Function.update k g (k g + 1) x), wait x i
      = ∑ x ∈ (Finset.range G.toNat).erase g, ∑ i ∈ Finset.range (k x), wait x i := by
    apply Finset.sum_congr rfl
    intro x hx
    rw [Function.update_noteq (Finset.ne_of_mem_erase hx)]
  rw [hrest, Function.update_same, Finset.sum_range_succ]
  ring

theorem samples_update (G : Int) (s : BenchState) (tw : Int) (g : Nat) (hg : g < G.toNat) :
    samples G ⟨tw, Function.update s.done g (s.done g + 1)⟩ = samples G s + 1 := by
  unfold samples
  have hmem : g ∈ Finset.range G.toNat := Finset.mem_range.2 hg
  rw [← Finset.add_sum_erase _ _ hmem, ← Finset.add_sum_erase (Finset.range G.toNat) _ hmem]
  have hrest : ∑ x ∈ (Finset.range G.toNat).erase g, Function.update s.done g (s.done g + 1) x
      = ∑ x ∈ (Finset.range G.toNat).erase g, s.done x := by
    apply Finset.sum_congr rfl
    intro x hx
    rw [Function.update_noteq (Finset.ne_of_mem_erase hx)]
  dsimp only
  rw [hrest, Function.update_same]
  ring

/-- Under every schedule: the accumulator holds the wrapped sum of the samples added so
far, no worker has run more than `iterations` iterations, a worker's counter is the number
of times it was scheduled (capped at `iterations`), and the schedule is at least as long as
the number of samples. -/
theorem runWorkers_inv (wait : Nat → Nat → Int) (G I : Int) (sched : List Nat) :
    (runWorkers wait G I sched).totalWait
        = wrap64 (exactSum wait G (runWorkers wait G I sched).done)
    ∧ (∀ g, (runWorkers wait G I sched).done g
        = if (g : Int) < G then min (sched.count g) I.toNat else 0)
    ∧ samples G (runWorkers wait G I sched) ≤ sched.length := by
  induction sched using List.reverseRecOn with
  | nil =>
    refine ⟨?_, ?_, ?_⟩
    · simp [runWorkers, benchInit, exactSum, wrap64]
    · intro g; simp [runWorkers, benchInit]
    · simp [runWorkers, benchInit, samples]
  | append_singleton l x ih =>
    obtain ⟨h1, h2, h3⟩ := ih
    rw [runWorkers_snoc]
    unfold addStep
    by_cases hc : (x : Int) < G ∧ ((runWorkers wait G I l).done x : Int) < I
    · rw [if_pos hc]
      have hx : x < G.toNat := by omega
      refine ⟨?_, ?_, ?_⟩
      · show atomicAddInt64 _ _ = wrap64 (exactSum wait G (Function.update _ x _))
        rw [exactSum_update wait G _ x hx, h1]
        exact wrap64_wrap_add _ _
      · intro g
        dsimp only
        by_cases hgx : g = x
        · subst hgx
          rw [Function.update_same, h2 g, if_pos hc.1, List.count_append, if_pos hc.1]
          have h4 := h2 g
          rw [if_pos hc.1] at h4
          have h5 := hc.2
          rw [h4] at h5
          simp only [List.count_singleton, beq_self_eq_true, if_true]
          omega
        · rw [Function.update_noteq hgx, h2 g, List.count_append]
          have : List.count g [x] = 0 := by
            rw [List.count_singleton]
            simp [Ne.symm hgx]
          rw [this, Nat.add_zero]
      · rw [samples_update G _ _ x hx, List.length_append]
        simp only [List.length_singleton]
        omega
    · rw [if_neg hc]
      refine ⟨h1, ?_, ?_⟩
      · intro g
        by_cases hgx : g = x
        · subst hgx
          rw [h2 g, List.count_append]
          by_cases hg : (g : Int) < G
          · have h4 := h2 g
            rw [if_pos hg] at h4
            have h5 : ¬ ((runWorkers wait G I l).done g : Int) < I := fun h => hc ⟨hg, h⟩
            rw [h4] at h5
            simp only [if_pos hg, List.count_singleton, beq_self_eq_true, if_true]
            omega
          · simp only [if_neg hg]
        · rw [h2 g, List.count_append]
          have : List.count g [x] = 0 := by
            rw [List.count_singleton]
            simp [Ne.symm hgx]
          rw [this, Nat.add_zero]
      · rw [List.length_append]
        omega

theorem allDone_done (wait : Nat → Nat → Int) (G I : Int) (sched : List Nat)
    (h : allDone G I (runWorkers wait G I sched)) (g : Nat) (hg : g < G.toNat) :
    (runWorkers wait G I sched).done g = I.toNat := by
  have h1 := h g hg
  have h2 := (runWorkers_inv wait G I sched).2.1 g
  have hg2 : (g : Int) < G := by omega
  rw [if_pos hg2] at h2
  omega

theorem exactSum_congr (wait : Nat → Nat → Int) (G : Int) (k k2 : Nat → Nat)
    (h : ∀ g, g < G.toNat → k g = k2 g) : exactSum wait G k = exactSum wait G k2 := by
  unfold exactSum
  apply Finset.sum_congr rfl
  intro g hg
  rw [h g (Finset.mem_range.1 hg)]

/-- With non-negative samples of at most `bound` ns and at most `cap` iterations a worker,
the exact sum of the samples added so far lies between `0` and
`goroutines * cap * bound`. -/
theorem exactSum_bounds (wait : Nat → Nat → Int) (G : Int) (k : Nat → Nat) (cap : Nat)
    (bound : Int) (hw : ∀ g i, 0 ≤ wait g i ∧ wait g i ≤ bound) (hk : ∀ g, k g ≤ cap) :
    0 ≤ exactSum wait G k ∧ exactSum wait G k ≤ (G.toNat : Int) * ((cap : Int) * bound) := by
  have hb : 0 ≤ bound := le_trans (hw 0 0).1 (hw 0 0).2
  unfold exactSum
  constructor
  · apply Finset.sum_nonneg
    intro g _
    apply Finset.sum_nonneg
    intro i _
    exact (hw g i).1
  · have hinner : ∀ g ∈ Finset.range G.toNat,
        ∑ i ∈ Finset.range (k g), wait g i ≤ (cap : Int) * bound := by
      intro g _
      have h1 := Finset.sum_le_card_nsmul (Finset.range (k g)) (fun i => wait g i) bound
        (fun i _ => (hw g i).2)
      simp only [Finset.card_range, nsmul_eq_mul] at h1
      have h2 : ((k g : Nat) : Int) * bound ≤ (cap : Int) * bound := by
        apply mul_le_mul_of_nonneg_right _ hb
        exact_mod_cast hk g
      exact le_trans h1 h2
    have h3 := Finset.sum_le_card_nsmul (Finset.range G.toNat)
      (fun g => ∑ i ∈ Finset.range (k g), wait g i) ((cap : Int) * bound) hinner
    simpa only [Finset.card_range, nsmul_eq_mul] using h3

/-- C8: for `goroutines <= 50`, `iterations = 1000` and samples between `0` and
`184467440737095` ns, under every schedule the exact sum of the samples added so far is at
most `2^63 - 1` and the accumulator equals it; the next add does not wrap either; and when
every worker is done the accumulator is the exact sum of all samples. -/
theorem totalWait_no_overflow (wait : Nat → Nat → Int) (G : Int) (hG : G ≤ 50)
    (hw : ∀ g i, 0 ≤ wait g i ∧ wait g i ≤ 184467440737095) (sched : List Nat) :
    0 ≤ exactSum wait G (runWorkers wait G 1000 sched).done
    ∧ exactSum wait G (runWorkers wait G 1000 sched).done ≤ 9223372036854775807
    ∧ (runWorkers wait G 1000 sched).totalWait
        = exactSum wait G (runWorkers wait G 1000 sched).done
    ∧ samples G (runWorkers wait G 1000 sched) ≤ 50000
    ∧ (∀ g : Nat, (g : Int) < G → ((runWorkers wait G 1000 sched).done g : Int) < 1000 →
        (runWorkers wait G 1000 sched).totalWait
            + wait g ((runWorkers wait G 1000 sched).done g) ≤ 9223372036854775807
        ∧ atomicAddInt64 (runWorkers wait G 1000 sched).totalWait
              (wait g ((runWorkers wait G 1000 sched).done g))
            = (runWorkers wait G 1000 sched).totalWait
              + wait g ((runWorkers wait G 1000 sched).done g))
    ∧ (allDone G 1000 (runWorkers wait G 1000 sched) →
        (runWorkers wait G 1000 sched).totalWait = exactSum wait G (fun _ => 1000)) := by
  have hcap : ∀ l : List Nat, ∀ g, (runWorkers wait G 1000 l).done g ≤ 1000 := by
    intro l g
    have h2 := (runWorkers_inv wait G 1000 l).2.1 g
    by_cases hg : (g : Int) < G
    · rw [if_pos hg] at h2; rw [h2]
      have : (1000 : Int).toNat = 1000 := rfl
      omega
    · rw [if_neg hg] at h2; omega
  have hbound : ∀ l : List Nat,
      0 ≤ exactSum wait G (runWorkers wait G 1000 l).done
      ∧ exactSum wait G (runWorkers wait G 1000 l).done ≤ 9223372036854775807 := by
    intro l
    have h := exactSum_bounds wait G (runWorkers wait G 1000 l).done 1000 184467440737095 hw
      (hcap l)
    have hG2 : (G.toNat : Int) ≤ 50 := by omega
    refine ⟨h.1, ?_⟩
    have h3 : (G.toNat : Int) * (((1000 : Nat) : Int) * 184467440737095)
        ≤ 9223372036854775807 := by
      push_cast
      omega
    exact le_trans h.2 h3
  have htw : ∀ l : List Nat, (runWorkers wait G 1000 l).totalWait
      = exactSum wait G (runWorkers wait G 1000 l).done := by
    intro l
    rw [(runWorkers_inv wait G 1000 l).1]
    exact wrap64_id _ (by have := (hbound l).1; omega) (by have := (hbound l).2; omega)
  refine ⟨(hbound sched).1, (hbound sched).2, htw sched, ?_, ?_, ?_⟩
  · unfold samples
    have h1 := Finset.sum_le_card_nsmul (Finset.range G.toNat)
      (fun g => (runWorkers wait G 1000 sched).done g) 1000 (fun g _ => hcap sched g)
    simp only [Finset.card_range, smul_eq_mul] at h1
    omega
  · intro g hg hlt
    have hnext := htw (sched ++ [g])
    have hb := hbound (sched ++ [g])
    rw [runWorkers_snoc] at hnext hb
    unfold addStep at hnext hb
    rw [if_pos ⟨hg, hlt⟩] at hnext hb
    dsimp only at hnext hb
    rw [exactSum_update wait G _ g (by omega), ← htw sched] at hnext hb
    exact ⟨hb.2, hnext⟩
  · intro hdone
    rw [htw sched]
    apply exactSum_congr
    intro g hg
    exact allDone_done wait G 1000 sched hdone g hg

theorem totalWait_no_overflow_witness :
    (2 : Int) ≤ 50
    ∧ (∀ g i, 0 ≤ smallWait g i ∧ smallWait g i ≤ 184467440737095)
    ∧ (runWorkers smallWait 2 1000 [0, 1, 1, 0, 1]).totalWait
        = exactSum smallWait 2 (runWorkers smallWait 2 1000 [0, 1, 1, 0, 1]).done
    ∧ (runWorkers smallWait 2 1000 [0, 1, 1, 0, 1]).totalWait = 8 :=
  ⟨by decide, fun g i => by unfold smallWait; omega,
    (totalWait_no_overflow smallWait 2 (by decide)
      (fun g i => by unfold smallWait; omega) [0, 1, 1, 0, 1]).2.2.1, by decide⟩

/-! ### A call of `benchmarkLock`: step equations -/

theorem callStep_ended (wait : Nat → Nat → Int) (G I : Int) (s : CallState) (e : Event)
    (o : Outcome) (h : s.outcome = some o) : callStep wait G I s e = s := by
  simp only [callStep, h]

theorem callStep_caller (wait : Nat → Nat → Int) (G I : Int) (s : CallState)
    (h : s.outcome = none) : callStep wait G I s Event.caller = callerStep G I s := by
  simp only [callStep, h]

theorem callStep_worker (wait : Nat → Nat → Int) (G I : Int) (s : CallState) (g : Nat)
    (h : s.outcome = none) :
    callStep wait G I s (Event.worker g) = workerStep wait G I s g := by
  simp only [callStep, h]

theorem runCall_snoc (wait : Nat → Nat → Int) (G I : Int) (sched : List Event) (e : Event) :
    runCall wait G I (sched ++ [e]) = callStep wait G I (runCall wait G I sched) e := by
  simp [runCall, List.foldl_append]

theorem divide_zero (G I tw : Int) (h : wrap64 (G * I) = 0) :
    divide G I tw = Outcome.panicDivideByZero := by
  simp [divide, h]

theorem divide_nonzero (G I tw : Int) (h : wrap64 (G * I) ≠ 0) :
    divide G I tw = Outcome.returned (wrap64 (Int.tdiv tw (wrap64 (G * I)))) := by
  simp [divide, h]

/-- A step ends the call in a `WaitGroup` panic or in the division, or leaves the outcome
as it was. -/
theorem callStep_outcome (wait : Nat → Nat → Int) (G I : Int) (s : CallState) (e : Event)
    (o : Outcome) (h : (callStep wait G I s e).outcome = some o) :
    s.outcome = some o ∨ o = Outcome.panicWaitGroup ∨ o = divide G I s.bench.totalWait := by
  cases ho : s.outcome with
  | some o2 =>
    rw [callStep_ended wait G I s e o2 ho, ho] at h
    exact Or.inl h
  | none =>
    right
    cases e with
    | caller =>
      rw [callStep_caller wait G I s ho] at h
      unfold callerStep at h
      by_cases h1 : (s.spawned : Int) < G
      · rw [if_pos h1] at h
        rw [ho] at h
        exact absurd h (by simp)
      · rw [if_neg h1] at h
        by_cases h2 : s.counter = 0
        · rw [if_pos h2] at h
          right
          injection h with h
          exact h.symm
        · rw [if_neg h2, ho] at h
          exact absurd h (by simp)
    | worker g =>
      rw [callStep_worker wait G I s g ho] at h
      unfold workerStep at h
      by_cases h1 : g < s.spawned
      · rw [if_pos h1] at h
        by_cases h2 : (s.bench.done g : Int) < I
        · rw [if_pos h2] at h
          rw [ho] at h
          exact absurd h (by simp)
        · rw [if_neg h2] at h
          by_cases h3 : s.exited g = true
          · rw [if_pos h3, ho] at h
            exact absurd h (by simp)
          · rw [if_neg h3] at h
            dsimp only at h
            by_cases h4 : atomicAddInt32 s.counter (-1) < 0
            · rw [if_pos h4] at h
              left
              injection h with h
              exact h.symm
            · rw [if_neg h4] at h
              exact absurd h (by simp)
      · rw [if_neg h1, ho] at h
        exact absurd h (by simp)

/-- Under every schedule a call that has ended has ended in a `WaitGroup` panic or in the
division of lines 71-72. -/
theorem runCall_outcome (wait : Nat → Nat → Int) (G I : Int) (sched : List Event)
    (o : Outcome) (h : (runCall wait G I sched).outcome = some o) :
    o = Outcome.panicWaitGroup ∨ ∃ tw, o = divide G I tw := by
  induction sched using List.reverseRecOn with
  | nil =>
    left
    simp only [runCall, List.foldl_nil, callStart] at h
    by_cases hc : atomicAddInt32 0 G < 0
    · rw [if_pos hc] at h
      injection h with h
      exact h.symm
    · rw [if_neg hc] at h
      exact absurd h (by simp)
  | append_singleton l e ih =>
    rw [runCall_snoc] at h
    rcases callStep_outcome wait G I _ e o h with h1 | h1 | h1
    · exact ih h1
    · exact Or.inl h1
    · exact Or.inr ⟨_, h1⟩

/-- The accumulator of a call is always one that some order of adds produces. -/
theorem runCall_bench (wait : Nat → Nat → Int) (G I : Int) (sched : List Event) :
    ∃ l, (runCall wait G I sched).bench = runWorkers wait G I l := by
  induction sched using List.reverseRecOn with
  | nil => exact ⟨[], rfl⟩
  | append_singleton l e ih =>
    obtain ⟨adds, hadds⟩ := ih
    rw [runCall_snoc]
    generalize runCall wait G I l = s at hadds
    cases ho : s.outcome with
    | some o2 =>
      rw [callStep_ended wait G I s e o2 ho]
      exact ⟨adds, hadds⟩
    | none =>
      cases e with
      | caller =>
        rw [callStep_caller wait G I s ho]
        unfold callerStep
        split
        · exact ⟨adds, hadds⟩
        · split
          · exact ⟨adds, hadds⟩
          · exact ⟨adds, hadds⟩
      | worker g =>
        rw [callStep_worker wait G I s g ho]
        unfold workerStep
        split
        · split
          · refine ⟨adds ++ [g], ?_⟩
            rw [runWorkers_snoc, ← hadds]
          · split
            · exact ⟨adds, hadds⟩
            · exact ⟨adds, hadds⟩
        · exact ⟨adds, hadds⟩

/-! ### The `WaitGroup` counter while the worker count fits it -/

theorem pending_update (G : Int) (ex : Nat → Bool) (g : Nat) (hg : g < G.toNat)
    (h : ex g = false) : pending G (Function.update ex g true) + 1 = pending G ex := by
  unfold pending
  have hmem : g ∈ Finset.range G.toNat := Finset.mem_range.2 hg
  rw [← Finset.add_sum_erase _ _ hmem, ← Finset.add_sum_erase (Finset.range G.toNat) _ hmem]
  have hrest : ∑ x ∈ (Finset.range G.toNat).erase g,
        (if Function.update ex g true x = true then 0 else 1)
      = ∑ x ∈ (Finset.range G.toNat).erase g, (if ex x = true then 0 else 1) := by
    apply Finset.sum_congr rfl
    intro x hx
    rw [Function.update_noteq (Finset.ne_of_mem_erase hx)]
  rw [hrest, Function.update_same, h]
  simp
  omega

theorem pending_le (G : Int) (ex : Nat → Bool) : pending G ex ≤ G.toNat := by
  unfold pending
  have h := Finset.sum_le_card_nsmul (Finset.range G.toNat)
    (fun g => if ex g = true then 0 else 1) 1 (fun g _ => by dsimp only; split <;> omega)
  simpa using h

theorem pending_zero (G : Int) (ex : Nat → Bool) (h : pending G ex = 0) (g : Nat)
    (hg : g < G.toNat) : ex g = true := by
  unfold pending at h
  have h1 := (Finset.sum_eq_zero_iff.1 h) g (Finset.mem_range.2 hg)
  by_contra hne
  rw [if_neg hne] at h1
  omega

theorem pending_of_all (G : Int) (ex : Nat → Bool) (h : ∀ g, g < G.toNat → ex g = true) :
    pending G ex = 0 := by
  unfold pending
  apply Finset.sum_eq_zero
  intro g hg
  rw [if_pos (h g (Finset.mem_range.1 hg))]

theorem callInv_start (wait : Nat → Nat → Int) (G I : Int) (h0 : 0 ≤ G)
    (hmax : G ≤ 2147483647) : CallInv wait G I (callStart G) := by
  have hc : atomicAddInt32 0 G = G := by
    unfold atomicAddInt32 wrap32; omega
  have hp : pending G (fun _ => false) = G.toNat := by
    unfold pending
    simp
  refine ⟨?_, ⟨[], rfl⟩, ?_, ?_, ?_⟩
  · simp only [callStart]; omega
  · intro g hg
    simp [callStart] at hg
  · show atomicAddInt32 0 G = ((pending G (fun _ => false) : Nat) : Int)
    rw [hc, hp]
    omega
  · intro o ho
    simp only [callStart] at ho
    rw [hc, if_neg (by omega)] at ho
    exact absurd ho (by simp)

theorem callInv_step (wait : Nat → Nat → Int) (G I : Int) (hmax : G ≤ 2147483647)
    (s : CallState) (h : CallInv wait G I s) (e : Event) :
    CallInv wait G I (callStep wait G I s e) := by
  cases ho : s.outcome with
  | some o2 =>
    rw [callStep_ended wait G I s e o2 ho]
    exact h
  | none =>
    have hend : ∀ o, (none : Option Outcome) = some o →
        o = divide G I s.bench.totalWait ∧ ∀ g, g < G.toNat → s.exited g = true := by
      intro o h1
      exact absurd h1 (by simp)
    cases e with
    | caller =>
      rw [callStep_caller wait G I s ho]
      unfold callerStep
      by_cases h1 : (s.spawned : Int) < G
      · rw [if_pos h1]
        refine ⟨?_, h.bench_run, ?_, h.counter_eq, ?_⟩
        · show ((s.spawned + 1 : Nat) : Int) ≤ G
          omega
        · intro g hg
          have := h.exited_done g hg
          exact ⟨Nat.lt_succ_of_lt this.1, this.2⟩
        · show ∀ o, s.outcome = some o → _
          rw [ho]
          exact hend
      · rw [if_neg h1]
        by_cases h2 : s.counter = 0
        · rw [if_pos h2]
          refine ⟨h.spawned_le, h.bench_run, h.exited_done, h.counter_eq, ?_⟩
          intro o h3
          injection h3 with h3
          refine ⟨h3.symm, ?_⟩
          intro g hg
          have hp : pending G s.exited = 0 := by
            have := h.counter_eq
            rw [h2] at this
            omega
          exact pending_zero G s.exited hp g hg
        · rw [if_neg h2]
          exact h
    | worker g =>
      rw [callStep_worker wait G I s g ho]
      unfold workerStep
      by_cases h1 : g < s.spawned
      · rw [if_pos h1]
        by_cases h2 : (s.bench.done g : Int) < I
        · rw [if_pos h2]
          obtain ⟨l, hl⟩ := h.bench_run
          refine ⟨h.spawned_le, ⟨l ++ [g], by rw [runWorkers_snoc, ← hl]⟩, ?_, h.counter_eq, ?_⟩
          · intro g0 hg0
            have h3 := h.exited_done g0 hg0
            refine ⟨h3.1, ?_⟩
            have hne : g0 ≠ g := by
              intro e
              rw [e] at h3
              exact h3.2 h2
            show ¬ (((addStep wait G I s.bench g).done g0 : Nat) : Int) < I
            unfold addStep
            split
            · dsimp only
              rw [Function.update_noteq hne]
              exact h3.2
            · exact h3.2
          · show ∀ o, s.outcome = some o → _
            rw [ho]
            intro o h3
            exact absurd h3 (by simp)
        · rw [if_neg h2]
          by_cases h3 : s.exited g = true
          · rw [if_pos h3]
            exact h
          · rw [if_neg h3]
            have hex : s.exited g = false := by
              cases hb : s.exited g with
              | true => exact absurd hb h3
              | false => rfl
            have hgG : g < G.toNat := by
              have := h.spawned_le
              omega
            have hpu := pending_update G s.exited g hgG hex
            have hple := pending_le G s.exited
            have hceq := h.counter_eq
            have hc : atomicAddInt32 s.counter (-1) = s.counter - 1 := by
              unfold atomicAddInt32 wrap32
              omega
            dsimp only
            rw [hc, if_neg (by omega)]
            refine ⟨h.spawned_le, h.bench_run, ?_, ?_, ?_⟩
            · intro g0 hg0
              dsimp only at hg0
              by_cases hne : g0 = g
              · rw [hne]
                exact ⟨h1, h2⟩
              · rw [Function.update_noteq hne] at hg0
                exact h.exited_done g0 hg0
            · dsimp only
              omega
            · intro o h4
              exact absurd h4 (by simp)
      · rw [if_neg h1]
        exact h

theorem callInv_run (wait : Nat → Nat → Int) (G I : Int) (h0 : 0 ≤ G)
    (hmax : G ≤ 2147483647) (sched : List Event) :
    CallInv wait G I (runCall wait G I sched) := by
  induction sched using List.reverseRecOn with
  | nil => exact callInv_start wait G I h0 hmax
  | append_singleton l e ih =>
    rw [runCall_snoc]
    exact callInv_step wait G I hmax _ ih e

theorem samples_le (wait : Nat → Nat → Int) (G I : Int) (l : List Nat) :
    samples G (runWorkers wait G I l) ≤ G.toNat * I.toNat := by
  unfold samples
  have h := Finset.sum_le_card_nsmul (Finset.range G.toNat)
    (fun g => (runWorkers wait G I l).done g) I.toNat (fun g _ => by
      dsimp only
      have h2 := (runWorkers_inv wait G I l).2.1 g
      rw [h2]
      split <;> omega)
  simpa using h

/-- While the worker count fits the counter, a call that has not ended can take a step
that ends it or brings it nearer to its end. -/
theorem call_progress (wait : Nat → Nat → Int) (G I : Int)
    (s : CallState) (h : CallInv wait G I s) (ho : s.outcome = none) :
    ∃ e, (callStep wait G I s e).outcome ≠ none
      ∨ remaining G I (callStep wait G I s e) < remaining G I s := by
  have hsl := h.spawned_le
  by_cases h1 : (s.spawned : Int) < G
  · refine ⟨Event.caller, Or.inr ?_⟩
    rw [callStep_caller wait G I s ho]
    unfold callerStep
    rw [if_pos h1]
    unfold remaining
    dsimp only
    omega
  · by_cases h2 : ∃ g, g < G.toNat ∧ (s.bench.done g : Int) < I
    · obtain ⟨g, hg, hlt⟩ := h2
      refine ⟨Event.worker g, Or.inr ?_⟩
      rw [callStep_worker wait G I s g ho]
      unfold workerStep
      rw [if_pos (by omega), if_pos hlt]
      obtain ⟨l, hl⟩ := h.bench_run
      have hnew : addStep wait G I s.bench g
          = ⟨atomicAddInt64 s.bench.totalWait (wait g (s.bench.done g)),
              Function.update s.bench.done g (s.bench.done g + 1)⟩ := by
        unfold addStep
        rw [if_pos ⟨by omega, hlt⟩]
      have hle : samples G (addStep wait G I s.bench g) ≤ G.toNat * I.toNat := by
        rw [hl, ← runWorkers_snoc]
        exact samples_le wait G I _
      have hup := samples_update G s.bench
        (atomicAddInt64 s.bench.totalWait (wait g (s.bench.done g))) g hg
      rw [← hnew] at hup
      unfold remaining
      dsimp only
      omega
    · by_cases h3 : ∃ g, g < G.toNat ∧ s.exited g = false
      · obtain ⟨g, hg, hex⟩ := h3
        refine ⟨Event.worker g, Or.inr ?_⟩
        have hnlt : ¬ (s.bench.done g : Int) < I := fun hlt => h2 ⟨g, hg, hlt⟩
        rw [callStep_worker wait G I s g ho]
        unfold workerStep
        rw [if_pos (by omega), if_neg hnlt, if_neg (by rw [hex]; simp)]
        have hpu := pending_update G s.exited g hg hex
        unfold remaining
        dsimp only
        omega
      · refine ⟨Event.caller, Or.inl ?_⟩
        have hall : ∀ g, g < G.toNat → s.exited g = true := by
          intro g hg
          cases hb : s.exited g with
          | true => rfl
          | false => exact absurd ⟨g, hg, hb⟩ h3
        have hc : s.counter = 0 := by
          rw [h.counter_eq, pending_of_all G s.exited hall]
          rfl
        rw [callStep_caller wait G I s ho]
        unfold callerStep
        rw [if_neg h1, if_pos hc]
        simp

theorem call_finish_from (wait : Nat → Nat → Int) (G I : Int) (hmax : G ≤ 2147483647)
    (n : Nat) : ∀ s : CallState, CallInv wait G I s → remaining G I s ≤ n →
      ∃ sched : List Event, (sched.foldl (callStep wait G I) s).outcome ≠ none := by
  induction n with
  | zero =>
    intro s h hn
    by_cases ho : s.outcome = none
    · obtain ⟨e, he | he⟩ := call_progress wait G I s h ho
      · exact ⟨[e], he⟩
      · omega
    · exact ⟨[], ho⟩
  | succ n ih =>
    intro s h hn
    by_cases ho : s.outcome = none
    · obtain ⟨e, he | he⟩ := call_progress wait G I s h ho
      · exact ⟨[e], he⟩
      · obtain ⟨sched, hs⟩ := ih (callStep wait G I s e) (callInv_step wait G I hmax s h e)
          (by omega)
        exact ⟨e :: sched, hs⟩
    · exact ⟨[], ho⟩

/-- While the worker count fits the counter, some schedule takes the call to its end. -/
theorem call_finishes (wait : Nat → Nat → Int) (G I : Int) (h0 : 0 ≤ G)
    (hmax : G ≤ 2147483647) : ∃ sched, (runCall wait G I sched).outcome ≠ none :=
  call_finish_from wait G I hmax _ (callStart G) (callInv_start wait G I h0 hmax) (le_refl _)

/-- While the worker count fits the counter, a call that has ended has ended in the
division, made after every worker left its loop, on the wrapped sum of all samples. -/
theorem call_result (wait : Nat → Nat → Int) (G I : Int) (h0 : 0 ≤ G)
    (hmax : G ≤ 2147483647) (sched : List Event) (o : Outcome)
    (ho : (runCall wait G I sched).outcome = some o) :
    o = divide G I (wrap64 (exactSum wait G (fun _ => I.toNat)))
    ∧ allDone G I (runCall wait G I sched).bench
    ∧ (∀ g, g < G.toNat → (runCall wait G I sched).bench.done g = I.toNat)
    ∧ (runCall wait G I sched).bench.totalWait
        = wrap64 (exactSum wait G (fun _ => I.toNat)) := by
  have h := callInv_run wait G I h0 hmax sched
  obtain ⟨h1, h2⟩ := h.ended o ho
  have hall : allDone G I (runCall wait G I sched).bench := by
    intro g hg
    exact (h.exited_done g (h2 g hg)).2
  obtain ⟨l, hl⟩ := h.bench_run
  have hd : ∀ g, g < G.toNat → (runCall wait G I sched).bench.done g = I.toNat := by
    intro g hg
    rw [hl] at hall ⊢
    exact allDone_done wait G I l hall g hg
  have htw : (runCall wait G I sched).bench.totalWait
      = wrap64 (exactSum wait G (fun _ => I.toNat)) := by
    rw [← exactSum_congr wait G _ (fun _ => I.toNat) hd, hl]
    exact (runWorkers_inv wait G I l).1
  refine ⟨?_, hall, hd, htw⟩
  rw [h1, htw]

theorem benchmarkLock_of_outcome (wait : Nat → Nat → Int) (G I : Int) (sched : List Event)
    (o : Outcome) (h : (runCall wait G I sched).outcome = some o) :
    benchmarkLock wait G I sched = o := by
  unfold benchmarkLock
  rw [h]
  rfl

theorem benchmarkLock_blocked (wait : Nat → Nat → Int) (G I : Int) (sched : List Event)
    (h : (runCall wait G I sched).outcome = none) :
    benchmarkLock wait G I sched = Outcome.blocked := by
  unfold benchmarkLock
  rw [h]
  rfl

theorem runCall_append (wait : Nat → Nat → Int) (G I : Int) (p q : List Event) :
    runCall wait G I (p ++ q) = q.foldl (callStep wait G I) (runCall wait G I p) := by
  simp [runCall, List.foldl_append]

/-- Once the call has ended, further events change nothing. -/
theorem runCall_stays_ended (wait : Nat → Nat → Int) (G I : Int) (p q : List Event)
    (o : Outcome) (h : (runCall wait G I p).outcome = some o) :
    (runCall wait G I (p ++ q)).outcome = some o := by
  induction q using List.reverseRecOn with
  | nil => simpa using h
  | append_singleton l e ih =>
    rw [← List.append_assoc, runCall_snoc, callStep_ended wait G I _ e o ih]
    exact ih

/-- While the worker count fits the counter, every schedule can be continued to one under
which the call ends, and it ends in the division on the wrapped sum of all samples. -/
theorem call_completes (wait : Nat → Nat → Int) (G I : Int) (h0 : 0 ≤ G)
    (hmax : G ≤ 2147483647) (sched : List Event) :
    ∃ more, benchmarkLock wait G I (sched ++ more)
      = divide G I (wrap64 (exactSum wait G (fun _ => I.toNat))) := by
  obtain ⟨more, hm⟩ := call_finish_from wait G I hmax _ (runCall wait G I sched)
    (callInv_run wait G I h0 hmax sched) (le_refl _)
  rw [← runCall_append] at hm
  obtain ⟨o, ho⟩ := Option.ne_none_iff_exists.1 hm
  refine ⟨more, ?_⟩
  rw [benchmarkLock_of_outcome wait G I _ o ho.symm]
  exact (call_result wait G I h0 hmax _ o ho.symm).1

theorem benchmarkLock_panics_at_start (wait : Nat → Nat → Int) (G I : Int)
    (h : wrap32 G < 0) (sched : List Event) :
    benchmarkLock wait G I sched = Outcome.panicWaitGroup := by
  have hs : (runCall wait G I []).outcome = some Outcome.panicWaitGroup := by
    show (callStart G).outcome = _
    have h2 : atomicAddInt32 0 G < 0 := by
      unfold atomicAddInt32
      rw [Int.zero_add]
      exact h
    simp only [callStart]
    rw [if_pos h2]
  have := runCall_stays_ended wait G I [] sched _ hs
  rw [List.nil_append] at this
  exact benchmarkLock_of_outcome wait G I sched _ this

/-- C9 (amended): the division of `benchmarkLock` is a division by zero exactly when the
`int` product `goroutines * iterations` is zero. For `goroutines = 0`, and for
`iterations = 0` with a worker count the `WaitGroup` counter can hold
(`0 <= goroutines <= 2^31 - 1`), no sample is ever accumulated, every schedule can be
continued until the call reaches the division, and whenever the call has ended it has
ended in the division-by-zero panic; for `goroutines >= 1` and `iterations >= 1` whose
product fits in `int` the divisor is non-zero and the call never ends in that panic. -/
theorem benchmarkLock_division (wait : Nat → Nat → Int) (G I : Int) :
    (G = 0 ∨ (I = 0 ∧ 0 ≤ G ∧ G ≤ 2147483647) →
      (∀ sched, ∃ more, benchmarkLock wait G I (sched ++ more) = Outcome.panicDivideByZero)
      ∧ ∀ sched,
          (benchmarkLock wait G I sched = Outcome.blocked
            ∨ benchmarkLock wait G I sched = Outcome.panicDivideByZero)
          ∧ samples G (runCall wait G I sched).bench = 0
          ∧ (runCall wait G I sched).bench.totalWait = 0)
    ∧ (1 ≤ G → 1 ≤ I → G * I ≤ 9223372036854775807 →
      wrap64 (G * I) ≠ 0
      ∧ ∀ sched, benchmarkLock wait G I sched ≠ Outcome.panicDivideByZero)
    ∧ (∀ sched, benchmarkLock wait G I sched = Outcome.panicDivideByZero →
        wrap64 (G * I) = 0) := by
  have hconv : ∀ sched, benchmarkLock wait G I sched = Outcome.panicDivideByZero →
      wrap64 (G * I) = 0 := by
    intro sched h
    cases ho : (runCall wait G I sched).outcome with
    | none =>
      rw [benchmarkLock_blocked wait G I sched ho] at h
      exact absurd h (by simp)
    | some o =>
      rw [benchmarkLock_of_outcome wait G I sched o ho] at h
      rcases runCall_outcome wait G I sched o ho with h1 | ⟨tw, h1⟩
      · rw [h1] at h
        exact absurd h (by simp)
      · by_contra hne
        rw [h1, divide_nonzero G I tw hne] at h
        exact absurd h (by simp)
  refine ⟨?_, ?_, hconv⟩
  · intro h
    have h0 : 0 ≤ G := by
      rcases h with h | ⟨_, h, _⟩ <;> omega
    have hmax : G ≤ 2147483647 := by
      rcases h with h | ⟨_, _, h⟩ <;> omega
    have hz : wrap64 (G * I) = 0 := by
      rcases h with h | ⟨h, _⟩
      · rw [h]; simp [wrap64]
      · rw [h]; simp [wrap64]
    refine ⟨?_, ?_⟩
    · intro sched
      obtain ⟨more, hm⟩ := call_completes wait G I h0 hmax sched
      exact ⟨more, by rw [hm, divide_zero G I _ hz]⟩
    · intro sched
      obtain ⟨l, hl⟩ := runCall_bench wait G I sched
      have hdone0 : ∀ g, (runWorkers wait G I l).done g = 0 := by
        intro g
        have h2 := (runWorkers_inv wait G I l).2.1 g
        by_cases hg : (g : Int) < G
        · rw [if_pos hg] at h2
          rcases h with h | ⟨h, _⟩
          · omega
          · rw [h2, h]; simp
        · rw [if_neg hg] at h2; exact h2
      refine ⟨?_, ?_, ?_⟩
      · cases ho : (runCall wait G I sched).outcome with
        | none => exact Or.inl (benchmarkLock_blocked wait G I sched ho)
        | some o =>
          right
          rw [benchmarkLock_of_outcome wait G I sched o ho,
            (call_result wait G I h0 hmax sched o ho).1, divide_zero G I _ hz]
      · rw [hl]
        unfold samples
        simp [hdone0]
      · rw [hl, (runWorkers_inv wait G I l).1]
        unfold exactSum
        simp [hdone0, wrap64]
  · intro hG hI hGI
    have hpos : 1 ≤ G * I := by nlinarith
    have hnz : wrap64 (G * I) ≠ 0 := by
      rw [wrap64_id _ (by omega) (by omega)]; omega
    exact ⟨hnz, fun sched h => hnz (hconv sched h)⟩

theorem benchmarkLock_division_witness :
    ((3 : Int) = 0 ∨ ((0 : Int) = 0 ∧ (0 : Int) ≤ 3 ∧ (3 : Int) ≤ 2147483647))
    ∧ (benchmarkLock sampleWait 3 0 [Event.caller, Event.caller, Event.worker 1] = Outcome.blocked
      ∨ benchmarkLock sampleWait 3 0 [Event.caller, Event.caller, Event.worker 1]
          = Outcome.panicDivideByZero)
    ∧ benchmarkLock sampleWait 3 0 [Event.caller, Event.caller, Event.worker 1, Event.caller,
        Event.worker 0, Event.worker 2, Event.caller] = Outcome.panicDivideByZero
    ∧ benchmarkLock sampleWait 0 3 [Event.caller] = Outcome.panicDivideByZero :=
  ⟨Or.inr ⟨rfl, by decide, by decide⟩,
    ((((benchmarkLock_division sampleWait 3 0).1 (Or.inr ⟨rfl, by decide, by decide⟩)).2
      [Event.caller, Event.caller, Event.worker 1]).1),
    by decide, by decide⟩

/-- C9 (counterexample): with `iterations = 0` the call does not always reach the
division. For `goroutines = -1` and for `goroutines = 2^31` the counter reads negative and
`wg.Add` panics at once; for `goroutines = 2^32` the counter reads `0` and the deferred
`wg.Done()` of the first worker to run panics. -/
theorem benchmarkLock_division_counterexample :
    (∀ sched, benchmarkLock sampleWait (-1) 0 sched = Outcome.panicWaitGroup)
    ∧ (∀ sched, benchmarkLock sampleWait 2147483648 0 sched = Outcome.panicWaitGroup)
    ∧ benchmarkLock sampleWait 4294967296 0 [Event.caller, Event.worker 0]
        = Outcome.panicWaitGroup
    ∧ Outcome.panicWaitGroup ≠ Outcome.panicDivideByZero := by
  refine ⟨?_, ?_, by decide, by decide⟩
  · intro sched
    exact benchmarkLock_panics_at_start sampleWait (-1) 0 (by decide) sched
  · intro sched
    exact benchmarkLock_panics_at_start sampleWait 2147483648 0 (by decide) sched

end HW2
